import Mathlib

/-!
Shallow embedding of the IJGP (iterative join-graph propagation) core of the
merlin library, from src/include/ijgp.h, together with theorems checking the
natural-language specification against it.

The discrete-factor algebra (class factor), the graph container, the MER_ENUM
macro and the ordering heuristics are external collaborators of the IJGP core
(they live outside the embedded header); where their behaviour decides a
property they are modelled from the specification, and each such definition
says so in its doc comment.  Machine integers (size_t) are modelled as Nat
with explicit reduction modulo 2^64 where the source can wrap.  Doubles are
modelled as rationals.  C++ exceptions become Except values.
-/

set_option allowUnsafeReducibility true in
attribute [semireducible] Rat.mul Rat.add Rat.sub Rat.inv

instance {ε α : Type _} [DecidableEq ε] [DecidableEq α] : DecidableEq (Except ε α) :=
  fun x y =>
    match x, y with
    | .ok a, .ok b =>
      if h : a = b then isTrue (by rw [h]) else isFalse (fun he => h (Except.ok.inj he))
    | .error a, .error b =>
      if h : a = b then isTrue (by rw [h]) else isFalse (fun he => h (Except.error.inj he))
    | .ok _, .error _ => isFalse (fun he => Except.noConfusion he)
    | .error _, .ok _ => isFalse (fun he => Except.noConfusion he)

namespace merlin

/-- Modulus of the C++ size_t type (2^64), as a numeral. -/
def size_t_mod : ℕ := 18446744073709551616

/-- Largest size_t value (2^64 - 1); std::numeric_limits of size_t, max(). -/
def size_t_max : ℕ := 18446744073709551615

/-- The size_t expression n - 1, which wraps around at n = 0. -/
def sub1sz (n : ℕ) : ℕ := (n + size_t_max) % size_t_mod

/-- A set of variables (variable_set of the factor library), each variable
being its integer index. -/
abbrev VarSet := Finset ℕ

/-- A discrete factor: a scope together with a table, the table given as a
function of total assignments (values of variables outside the scope are
ignored by factors built by the operations below).  Modelled from the spec:
the factor class itself is an external collaborator (§2 C1, §3). -/
structure factor where
  vars : VarSet
  val : (ℕ → ℕ) → ℚ

/-- The scalar factor 1.0 (multiplicative identity); also the
default-constructed factor, to which messages are initialised (§4.3). -/
def factorOne : factor := ⟨∅, fun _ => 1⟩

/-- The scope as a sorted list of variable indices (enumerated as the
ascending filter of an initial segment covering the set). -/
def vsList (vs : VarSet) : List ℕ := (List.range (vs.sup id + 1)).filter (· ∈ vs)

/-- All value tuples for a list of variables, given the cardinality map. -/
def tuples (card : ℕ → ℕ) : List ℕ → List (List ℕ)
  | [] => [[]]
  | v :: vs => (List.range (card v)).foldr
      (fun k acc => ((tuples card vs).map fun t => k :: t) ++ acc) []

/-- Override an assignment on a list of variables with a tuple of values. -/
def ovr (σ : ℕ → ℕ) : List ℕ → List ℕ → ℕ → ℕ
  | [], _ => σ
  | _ :: _, [] => σ
  | v :: vs, k :: ks => fun w => if w = v then k else ovr σ vs ks w

/-- Maximum of a list of rationals (0 for the empty list; tables built over a
nonempty scope enumeration are never empty). -/
def qlistMax : List ℚ → ℚ
  | [] => 0
  | q :: qs => qs.foldl max q

/-- Smallest index of a maximal element of a list of rationals. -/
def qlistArgmax (l : List ℚ) : ℕ :=
  ((l.enum.filter fun e => e.2 = qlistMax l).headD (0, 0)).1

namespace factor

/-- Point-wise product of two factors (operator* of the factor library). -/
def mul (f g : factor) : factor := ⟨f.vars ∪ g.vars, fun σ => f.val σ * g.val σ⟩

/-- Sum-eliminate a set of variables (factor::sum(vs)). -/
def sum (f : factor) (card : ℕ → ℕ) (vs : VarSet) : factor :=
  ⟨f.vars \ vs, fun σ =>
    ((tuples card (vsList (f.vars ∩ vs))).map
      fun t => f.val (ovr σ (vsList (f.vars ∩ vs)) t)).sum⟩

/-- Max-eliminate a set of variables (factor::max(vs)). -/
def max (f : factor) (card : ℕ → ℕ) (vs : VarSet) : factor :=
  ⟨f.vars \ vs, fun σ =>
    qlistMax ((tuples card (vsList (f.vars ∩ vs))).map
      fun t => f.val (ovr σ (vsList (f.vars ∩ vs)) t))⟩

/-- The list of all table entries of a factor. -/
def table (f : factor) (card : ℕ → ℕ) : List ℚ :=
  (tuples card (vsList f.vars)).map fun t => f.val (ovr (fun _ => 0) (vsList f.vars) t)

/-- Largest table entry (scalar factor::max()). -/
def maxAll (f : factor) (card : ℕ → ℕ) : ℚ := qlistMax (f.table card)

/-- Sum of all table entries (scalar factor::sum()). -/
def sumAll (f : factor) (card : ℕ → ℕ) : ℚ := (f.table card).sum

/-- Sum-marginal onto a subscope (factor::marginal(vs)). -/
def marginal (f : factor) (card : ℕ → ℕ) (vs : VarSet) : factor :=
  f.sum card (f.vars \ vs)

/-- Max-marginal onto a subscope (factor::maxmarginal(vs)). -/
def maxmarginal (f : factor) (card : ℕ → ℕ) (vs : VarSet) : factor :=
  f.max card (f.vars \ vs)

/-- Condition on variable v taking value k (factor::condition). -/
def condition (f : factor) (v k : ℕ) : factor :=
  ⟨f.vars.erase v, fun σ => f.val (fun w => if w = v then k else σ w)⟩

/-- Divide every entry by a scalar (operator/= with a double). -/
def divs (f : factor) (c : ℚ) : factor := ⟨f.vars, fun σ => f.val σ / c⟩

/-- Normalize so entries sum to 1 (factor::normalize()). -/
def normalize (f : factor) (card : ℕ → ℕ) : factor := f.divs (f.sumAll card)

/-- Linear index of the largest table entry (factor::argmax()); modelled from
the spec: the tie-break of the external algebra is normalised to the lowest
index (§9). -/
def argmax (f : factor) (card : ℕ → ℕ) : ℕ := qlistArgmax (f.table card)

end factor

/-- Inference tasks supported (MER_ENUM( Task, PR,MAR,MAP )). -/
inductive Task
  | PR | MAR | MAP
deriving DecidableEq, Repr

/-- Algorithm properties (MER_ENUM( Property, iBound,Order,Iter,Task,Debug )). -/
inductive Property
  | iBound | Order | Iter | Task | Debug
deriving DecidableEq, Repr

/-- Elimination operators (MER_ENUM( ElimOp, Max,Sum )). -/
inductive ElimOp
  | Max | Sum
deriving DecidableEq, Repr

/-- Elimination-order heuristics of the external ordering module; only the
default named by the spec is needed here. -/
inductive OrderMethod
  | MinFill
deriving DecidableEq, Repr

/-- Error kinds raised by the embedded code (std::runtime_error sites). -/
inductive MerlinError
  | invalidConfig | notImplemented | unknownElimOp
deriving DecidableEq, Repr

/-- Modelled from the spec: the MER_ENUM-generated constructor of Property
from a string raises InvalidConfig on an unknown property key (§7); the
macro itself is external to the embedded header. -/
def Property.ofString (s : String) : Except MerlinError Property :=
  if s = "iBound" then .ok .iBound
  else if s = "Order" then .ok .Order
  else if s = "Iter" then .ok .Iter
  else if s = "Task" then .ok .Task
  else if s = "Debug" then .ok .Debug
  else .error .invalidConfig

/-- Modelled from the spec: the MER_ENUM-generated constructor of Task from a
string raises InvalidConfig on an unparseable task name (§7). -/
def Task.ofString (s : String) : Except MerlinError Task :=
  if s = "PR" then .ok .PR
  else if s = "MAR" then .ok .MAR
  else if s = "MAP" then .ok .MAP
  else .error .invalidConfig

/-- Modelled from the spec: the constructor of OrderMethod from a string;
only the default MinFill key is relevant, anything unknown raises. -/
def OrderMethod.ofString (s : String) : Except MerlinError OrderMethod :=
  if s = "MinFill" then .ok .MinFill else .error .invalidConfig

/-- Worker of split, collecting the current piece in reverse. -/
def splitAux (sep : Char) : List Char → List Char → List String
  | [], acc => [String.mk acc.reverse]
  | c :: cs, acc =>
    if c = sep then String.mk acc.reverse :: splitAux sep cs []
    else splitAux sep cs (c :: acc)

/-- merlin::split: cut a string at every occurrence of a delimiter. -/
def split (s : String) (sep : Char) : List String := splitAux sep s.toList []

/-- C atol: skip leading whitespace, optional sign, read leading digits,
yielding 0 when there are none. -/
def atolDigits : List Char → ℕ → ℕ
  | [], acc => acc
  | c :: cs, acc => if c.isDigit then atolDigits cs (acc * 10 + (c.toNat - 48)) else acc

/-- C atol on a string, as an integer. -/
def atol (s : String) : Int :=
  let cs := s.toList.dropWhile fun c => c == ' ' || c == '\t' || c == '\n'
  match cs with
  | '-' :: rest => - (atolDigits rest 0 : Int)
  | '+' :: rest => (atolDigits rest 0 : Int)
  | _ => (atolDigits cs 0 : Int)

/-- Conversion of a C long to size_t (reduction modulo 2^64). -/
def toSizeT (i : Int) : ℕ := (i % (size_t_mod : Int)).toNat

/-- set_ibound: i when nonzero, otherwise the maximal size_t value. -/
def set_ibound (i : ℕ) : ℕ := if i = 0 then size_t_max else i

/-- The configuration members of the ijgp object that set_properties writes. -/
structure Cfg where
  m_ibound : ℕ
  num_iter : ℕ
  m_task : Task
  m_elim_op : ElimOp
  m_order_method : OrderMethod
  m_order : List ℕ
  m_debug : Bool
deriving DecidableEq, Repr

/-- One key=value entry of the property string, dispatched as in the switch
of set_properties. -/
def set_properties_entry (c : Cfg) (entry : String) : Except MerlinError Cfg :=
  let asgn := split entry '='
  match Property.ofString (asgn.getD 0 "") with
  | .error e => .error e
  | .ok .iBound => .ok { c with m_ibound := set_ibound (toSizeT (atol (asgn.getD 1 ""))) }
  | .ok .Order => (OrderMethod.ofString (asgn.getD 1 "")).map
      fun om => { c with m_order := [], m_order_method := om }
  | .ok .Iter => .ok { c with num_iter := toSizeT (atol (asgn.getD 1 "")) }
  | .ok .Task => (Task.ofString (asgn.getD 1 "")).map
      fun t => { c with m_task := t,
                        m_elim_op := if t = Task.MAR then ElimOp.Sum else ElimOp.Max }
  | .ok .Debug => .ok { c with m_debug := if atol (asgn.getD 1 "") = 0 then false else true }

/-- The loop of set_properties over the comma-separated entries. -/
def set_properties_list (c : Cfg) : List String → Except MerlinError Cfg
  | [] => .ok c
  | e :: rest =>
    match set_properties_entry c e with
    | .error err => .error err
    | .ok c' => set_properties_list c' rest

/-- Body of set_properties on a nonempty option string: reset m_debug, then
process the comma-separated entries. -/
def set_properties_go (c : Cfg) (opt : String) : Except MerlinError Cfg :=
  set_properties_list { c with m_debug := false } (split opt ',')

/-- set_properties: an empty option string is replaced by the default
property string, otherwise the entries are processed in order. -/
def set_properties (c : Cfg) (opt : String) : Except MerlinError Cfg :=
  if opt.length = 0 then
    set_properties_go c "iBound=4,Order=MinFill,Iter=10,Task=MAR,Debug=0"
  else set_properties_go c opt

/-- An arbitrary pre-constructor configuration (the C++ members are
uninitialized until the constructor runs set_properties). -/
def cfg0 : Cfg := ⟨0, 0, Task.PR, ElimOp.Max, OrderMethod.MinFill, [], false⟩

/-- The configuration produced by the default constructor. -/
def defaultCfg : Cfg :=
  match set_properties cfg0 "" with
  | .ok c => c
  | .error _ => cfg0

/-- Eliminate a set of variables from a factor, dispatching on the configured
elimination operator (member elim). -/
def elim (m_elim_op : ElimOp) (card : ℕ → ℕ) (F : factor) (vs : VarSet) : factor :=
  match m_elim_op with
  | .Sum => F.sum card vs
  | .Max => F.max card vs

/-- Marginal over a set of variables, dispatching on the configured
elimination operator (member marg). -/
def marg (m_elim_op : ElimOp) (card : ℕ → ℕ) (F : factor) (vs : VarSet) : factor :=
  match m_elim_op with
  | .Sum => F.marginal card vs
  | .Max => F.maxmarginal card vs

/-- Scoring function for bucket aggregation (member score); fin holds the
factor scopes, i and j index the candidate pair.  size_t subtractions and
the size_t increment of the effective i-bound wrap modulo 2^64 as in C++. -/
def score (m_ibound : ℕ) (fin : List VarSet) (_VX : ℕ) (i j : ℕ) : ℚ :=
  let F1 := fin.getD i ∅
  let F2 := fin.getD j ∅
  let iBound := Nat.max (Nat.max m_ibound (sub1sz F1.card)) (sub1sz F2.card)
  let both := F1 ∪ F2
  if both.card > (iBound + 1) % size_t_mod then -3
  else 1 / ((F1.card : ℚ) + F2.card)

/-- belief(variable_set): the overload of belief taking a variable set; it
reads nothing of the object and unconditionally throws. -/
def belief_vs (_m_beliefs : List factor) (_vs : VarSet) : Except MerlinError factor :=
  .error .notImplemented

/-- Insert an index into a sorted index list (flist insertion, operator |=
with a single element). -/
def sinsert (x : ℕ) : List ℕ → List ℕ
  | [] => [x]
  | y :: ys => if x < y then x :: y :: ys else if x = y then y :: ys else y :: sinsert x ys

/-- Union of two sorted index lists (flist operator |=). -/
def sunion (a b : List ℕ) : List ℕ := b.foldl (fun l x => sinsert x l) a

/-- The input graphical model handle m_gmo: variable count, cardinalities
and the original factor list. -/
structure Model where
  nvar : ℕ
  card : ℕ → ℕ
  factors : List factor

/-- Modelled from the spec: with_variable / factors_with(v) of the external
graphical_model, the indices of the original factors whose scope contains
the variable (§6). -/
def with_variable (m : Model) (v : ℕ) : List ℕ :=
  (List.range m.factors.length).filter fun i => v ∈ (m.factors.getD i factorOne).vars

/-- Modelled from the spec: the adjacency helper erase(adj, idx, vs) of the
external graphical_model, removing idx from adj[v] for every v in vs. -/
def eraseAdj (vin : List (List ℕ)) (i : ℕ) (vs : VarSet) : List (List ℕ) :=
  (vsList vs).foldl (fun vn v => vn.set v ((vn.getD v []).erase i)) vin

/-- Modelled from the spec: the adjacency helper insert(adj, idx, vs) of the
external graphical_model, adding idx to adj[v] for every v in vs. -/
def insertAdj (vin : List (List ℕ)) (i : ℕ) (vs : VarSet) : List (List ℕ) :=
  (vsList vs).foldl (fun vn v => vn.set v (sinsert i (vn.getD v []))) vin

/-- Helper class sPair: the pair sorted with the larger index first. -/
def sPair (ii jj : ℕ) : ℕ × ℕ := if ii < jj then (jj, ii) else (ii, jj)

/-- The multimap of scored candidate pairs, in insertion order; among equal
scores std::multimap keeps insertion order and rbegin() is the last
inserted of the greatest key. -/
abbrev Scores := List (ℚ × (ℕ × ℕ))

/-- The entry scores.rbegin() points at: greatest score, latest-inserted
among entries of equal score. -/
def pickTop : Scores → Option (ℚ × (ℕ × ℕ))
  | [] => none
  | e :: es => some (es.foldl (fun b e2 => if b.1 ≤ e2.1 then e2 else b) e)

/-- Erase the single entry a pair owns (the erase through reverseScore). -/
def eraseEntry (sc : Scores) (p : ℕ × ℕ) : Scores := sc.eraseP fun e => e.2 == p

/-- Population of the initial pairwise scores: for each id i in bucket
order, the pairs (i, j) with j before i, then the sentinel self entry of i
at score −1. -/
def initScoresAux (f : ℕ → ℕ → ℚ) (prev : List ℕ) : List ℕ → Scores
  | [] => []
  | i :: rest =>
    (prev.map fun j => (f i j, sPair i j)) ++ [(-1, sPair i i)]
      ++ initScoresAux f (prev ++ [i]) rest

/-- All initial score entries of a bucket, in multimap insertion order. -/
def initScores (f : ℕ → ℕ → ℚ) (ids : List ℕ) : Scores := initScoresAux f [] ids

/-- State of the greedy mini-bucket aggregation inside one bucket. -/
structure BucketSt where
  fin : List VarSet
  vin : List (List ℕ)
  Orig : List (List ℕ)
  New : List (List ℕ)
  ids : List ℕ
  scores : Scores

/-- One aggregation step: pick the best-scored pair; none when the best
score is negative (then the loop quits).  On a merge of (ii, jj) with
ii the larger index: combine the scopes into jj, drop ii from the
adjacency and the bucket, move originals and incoming into jj, and
rescore the pairs with jj. -/
def mergeStep (m_ibound : ℕ) (x : ℕ) (st : BucketSt) : Option BucketSt :=
  match pickTop st.scores with
  | none => none
  | some top =>
    if top.1 < 0 then none
    else
      let ii := top.2.1
      let jj := top.2.2
      let finII := st.fin.getD ii ∅
      let fin2 := (st.fin.set jj ((st.fin.getD jj ∅) ∪ finII)).set ii ∅
      let vin1 := eraseAdj st.vin ii finII
      let Orig1 := (st.Orig.set jj (sunion (st.Orig.getD jj []) (st.Orig.getD ii []))).set ii []
      let New1 := (st.New.set jj (sunion (st.New.getD jj []) (st.New.getD ii []))).set ii []
      let sc1 := st.ids.foldl (fun sc k => eraseEntry sc (sPair ii k)) st.scores
      let ids1 := st.ids.erase ii
      let sc2 := ids1.foldl (fun sc k =>
          if k = jj then sc
          else eraseEntry sc (sPair jj k) ++ [(score m_ibound fin2 x jj k, sPair jj k)]) sc1
      some { fin := fin2, vin := vin1, Orig := Orig1, New := New1, ids := ids1, scores := sc2 }

/-- The aggregation loop; each merge removes one id, so the bucket size
bounds the number of steps. -/
def greedyLoop (m_ibound : ℕ) (x : ℕ) : ℕ → BucketSt → BucketSt
  | 0, st => st
  | fuel + 1, st =>
    match mergeStep m_ibound x st with
    | none => st
    | some st' => greedyLoop m_ibound x fuel st'

/-- State of the schematic mini-bucket construction across buckets. -/
structure BuildSt where
  fin : List VarSet
  vin : List (List ℕ)
  Orig : List (List ℕ)
  New : List (List ℕ)
  ncl : ℕ
  cscopes : List VarSet
  clusters : List (List ℕ)
  c2v : List (ℕ × ℕ)
  origs : List (List ℕ)
  sched : List (ℕ × ℕ)

/-- Create the cluster of one surviving mini-bucket (representative id i)
of the bucket of variable x: record its scope and originals, add the
edges from its incoming clusters to the schedule, replace it by its
residual (scope minus x) whose sole incoming is the new cluster. -/
def createCluster (x : ℕ) (st : BuildSt) (i : ℕ) : BuildSt :=
  let alpha := st.ncl
  let sc := st.fin.getD i ∅
  { fin := st.fin.set i (sc.erase x)
    vin := insertAdj st.vin i (sc.erase x)
    Orig := st.Orig.set i []
    New := st.New.set i [alpha]
    ncl := st.ncl + 1
    cscopes := st.cscopes ++ [sc]
    clusters := st.clusters.set x (sinsert alpha (st.clusters.getD x []))
    c2v := st.c2v ++ [(alpha, x)]
    origs := st.origs ++ [st.Orig.getD i []]
    sched := st.sched ++ (st.New.getD i []).map fun j => (j, alpha) }

/-- The chain edges between the k sibling clusters of one bucket: the
clusters get the consecutive indices c, c+1, ..., c+k−1, and the loop
for i in [0, k−1) adds the edge (alphas[i], alphas[i+1]). -/
def consecPairs (c k : ℕ) : List (ℕ × ℕ) :=
  (List.range (k - 1)).map fun i => (c + i, c + i + 1)

/-- Process the bucket of one variable of the elimination order: skip it
when no live factor mentions it, otherwise partition its bucket greedily,
create a cluster per mini-bucket, and chain the sibling clusters. -/
def processVar (m_ibound : ℕ) (st : BuildSt) (x : ℕ) : BuildSt :=
  if x ≥ st.vin.length ∨ st.vin.getD x [] = [] then st
  else
    let ids := st.vin.getD x []
    let b0 : BucketSt := ⟨st.fin, st.vin, st.Orig, st.New, ids,
        initScores (fun i j => score m_ibound st.fin x i j) ids⟩
    let b1 := greedyLoop m_ibound x ids.length b0
    let ncl0 := st.ncl
    let st1 : BuildSt :=
      { st with fin := b1.fin, vin := b1.vin, Orig := b1.Orig, New := b1.New }
    let st2 := b1.ids.foldl (createCluster x) st1
    { st2 with sched := st2.sched ++ consecPairs ncl0 b1.ids.length }

/-- The schematic mini-bucket construction over the elimination order. -/
def initBuild (m : Model) (m_ibound : ℕ) (order : List ℕ) : BuildSt :=
  order.foldl (processVar m_ibound)
    { fin := m.factors.map (·.vars)
      vin := (List.range m.nvar).map (with_variable m)
      Orig := (List.range m.factors.length).map fun i => [i]
      New := List.replicate m.factors.length []
      ncl := 0
      cscopes := []
      clusters := List.replicate order.length []
      c2v := []
      origs := []
      sched := [] }

/-- The state of the ijgp object after init, with the member names of the
source. -/
structure IjgpState where
  m_ibound : ℕ
  num_iter : ℕ
  m_task : Task
  m_elim_op : ElimOp
  m_log_z : ℚ
  m_order : List ℕ
  m_beliefs : List factor
  m_best_config : List ℕ
  m_clusters : List (List ℕ)
  m_separators : List (List VarSet)
  m_originals : List (List ℕ)
  m_scopes : List VarSet
  m_in : List (List ℕ)
  m_out : List (List ℕ)
  m_roots : List ℕ
  m_forward : List factor
  m_backward : List factor
  m_schedule : List (ℕ × ℕ)
  m_edge_indeces : List (List ℕ)
  m_cluster2var : List (ℕ × ℕ)
  m_factors : List factor

/-- Write into a matrix held as nested lists (no-op outside the bounds the
C++ vectors were resized to). -/
def mset {α : Type _} (mat : List (List α)) (a b : ℕ) (v : α) : List (List α) :=
  mat.set a ((mat.getD a []).set b v)

/-- Read from a matrix held as nested lists. -/
def mget {α : Type _} (mat : List (List α)) (a b : ℕ) (d : α) : α :=
  (mat.getD a []).getD b d

/-- The separator matrix: for every recorded edge (a, b) with a ≤ b, both
entries [a][b] and [b][a] hold the intersection of the two cluster scopes
(the graph container reports each added edge; every add_edge in init is
paired with a schedule entry, so the schedule enumerates the edges). -/
def mkSeparators (scopes : List VarSet) (edges : List (ℕ × ℕ)) (C : ℕ) : List (List VarSet) :=
  edges.foldl (fun sp e =>
    if e.1 > e.2 then sp
    else
      let sep := (scopes.getD e.1 ∅) ∩ (scopes.getD e.2 ∅)
      mset (mset sp e.1 e.2 sep) e.2 e.1 sep)
    (List.replicate C (List.replicate C ∅))

/-- Incoming and outgoing cluster lists from the schedule. -/
def mkInOut (edges : List (ℕ × ℕ)) (C : ℕ) : List (List ℕ) × List (List ℕ) :=
  edges.foldl (fun io e =>
    (io.1.set e.2 (sinsert e.1 (io.1.getD e.2 [])),
     io.2.set e.1 (sinsert e.2 (io.2.getD e.1 []))))
    (List.replicate C [], List.replicate C [])

/-- The root clusters: those with no outgoing edge. -/
def mkRoots (outL : List (List ℕ)) : List ℕ :=
  (List.range outL.length).filter fun i => (outL.getD i []).isEmpty

/-- The edge-index matrix: entry [from][to] holds the schedule position. -/
def mkEdgeIdx (edges : List (ℕ × ℕ)) (C : ℕ) : List (List ℕ) :=
  edges.enum.foldl (fun M ie => mset M ie.2.1 ie.2.2 ie.1)
    (List.replicate C (List.replicate C 0))

/-- The clique potentials: the product of each cluster's original factors
over the initial factor 1.0. -/
def mkPotentials (m : Model) (origs : List (List ℕ)) : List factor :=
  origs.map fun l => l.foldl (fun f j => f.mul (m.factors.getD j factorOne)) factorOne

/-- init(): build the join-graph schematically, then separators, in/out
lists, roots, edge indices, messages (all scalar 1), clique potentials
and initial beliefs.  The induced width wstar of the order is computed by
the external graphical_model and is passed as an input here; the
elimination order and pseudo-tree are taken as given (their construction
is external).  The body performs no validation of the order. -/
def init (m : Model) (cfg : Cfg) (order : List ℕ) (wstar : ℕ) : IjgpState :=
  let ni := if cfg.m_ibound ≥ wstar then 1 else cfg.num_iter
  let b := initBuild m cfg.m_ibound order
  let C := b.ncl
  let N := b.sched.length
  let io := mkInOut b.sched C
  { m_ibound := cfg.m_ibound
    num_iter := ni
    m_task := cfg.m_task
    m_elim_op := cfg.m_elim_op
    m_log_z := 0
    m_order := order
    m_beliefs := List.replicate m.nvar factorOne
    m_best_config := List.replicate m.nvar size_t_max
    m_clusters := b.clusters
    m_separators := mkSeparators b.cscopes b.sched C
    m_originals := b.origs
    m_scopes := b.cscopes
    m_in := io.1
    m_out := io.2
    m_roots := mkRoots io.2
    m_forward := List.replicate N factorOne
    m_backward := List.replicate N factorOne
    m_schedule := b.sched
    m_edge_indeces := mkEdgeIdx b.sched C
    m_cluster2var := b.c2v
    m_factors := mkPotentials m b.origs }

/-- init as a fallible call: the body of init contains no order validation
and no throw statement, so it always returns the built state. -/
def initE (m : Model) (cfg : Cfg) (order : List ℕ) (wstar : ℕ) :
    Except MerlinError IjgpState :=
  .ok (init m cfg order wstar)

/-- The stored edge index of the directed edge (a, b). -/
def edge_index (s : IjgpState) (a b : ℕ) : ℕ := mget s.m_edge_indeces a b 0

/-- calc_belief(a): the cluster potential times all incoming forward and
all outgoing backward messages. -/
def calc_belief (s : IjgpState) (a : ℕ) : factor :=
  let bel := s.m_factors.getD a factorOne
  let bel := (s.m_in.getD a []).foldl
    (fun f p => f.mul (s.m_forward.getD (edge_index s p a) factorOne)) bel
  (s.m_out.getD a []).foldl
    (fun f q => f.mul (s.m_backward.getD (edge_index s a q) factorOne)) bel

/-- calc_belief(a, b): as calc_belief while skipping the messages exchanged
with cluster b in either direction. -/
def calc_belief_excl (s : IjgpState) (a b : ℕ) : factor :=
  let bel := s.m_factors.getD a factorOne
  let bel := (s.m_in.getD a []).foldl
    (fun f p =>
      if p = b then f else f.mul (s.m_forward.getD (edge_index s p a) factorOne)) bel
  (s.m_out.getD a []).foldl
    (fun f q =>
      if q = b then f else f.mul (s.m_backward.getD (edge_index s a q) factorOne)) bel

/-- incoming(a): the cluster potential times the incoming forward messages
only. -/
def incoming (s : IjgpState) (a : ℕ) : factor :=
  (s.m_in.getD a []).foldl
    (fun f p => f.mul (s.m_forward.getD (edge_index s p a) factorOne))
    (s.m_factors.getD a factorOne)

/-- One edge of the forward pass: eliminate down to the separator, rescale
by the maximum, store the message and add the log of the scale to
m_log_z.  The logarithm of the external numeric library is the parameter
lg. -/
def forward_edge (card : ℕ → ℕ) (lg : ℚ → ℚ) (s : IjgpState) (e : ℕ × ℕ) : IjgpState :=
  let a := e.1
  let b := e.2
  let ei := edge_index s a b
  let VX := (s.m_scopes.getD a ∅) \ mget s.m_separators a b ∅
  let bel := calc_belief_excl s a b
  let msg := elim s.m_elim_op card bel VX
  let mx := msg.maxAll card
  { s with m_forward := s.m_forward.set ei (msg.divs mx),
           m_log_z := s.m_log_z + lg mx }

/-- The root contribution F: for every root, log of the sum of its belief
when the task is MAR, log of the max otherwise (F is a scalar factor, so
its final max is its accumulated value). -/
def root_contrib (card : ℕ → ℕ) (lg : ℚ → ℚ) (s : IjgpState) : ℚ :=
  s.m_roots.foldl (fun F r =>
    let bel := calc_belief s r
    F + (if s.m_task = Task.MAR then lg (bel.sumAll card) else lg (bel.maxAll card))) 0

/-- forward(): reset m_log_z to 0, send every scheduled message top-down,
then add the root contribution. -/
def forward (card : ℕ → ℕ) (lg : ℚ → ℚ) (s : IjgpState) : IjgpState :=
  let s1 := s.m_schedule.foldl (forward_edge card lg) { s with m_log_z := 0 }
  { s1 with m_log_z := s1.m_log_z + root_contrib card lg s1 }

/-- One edge of the backward pass: the message from b back to a, rescaled
by its maximum; m_log_z is not touched. -/
def backward_edge (card : ℕ → ℕ) (s : IjgpState) (e : ℕ × ℕ) : IjgpState :=
  let a := e.1
  let b := e.2
  let ei := edge_index s a b
  let VX := (s.m_scopes.getD b ∅) \ mget s.m_separators a b ∅
  let bel := calc_belief_excl s b a
  let msg := elim s.m_elim_op card bel VX
  let mx := msg.maxAll card
  { s with m_backward := s.m_backward.set ei (msg.divs mx) }

/-- backward(): iterate the schedule in reverse, updating only the backward
messages. -/
def backward (card : ℕ → ℕ) (s : IjgpState) : IjgpState :=
  s.m_schedule.reverse.foldl (backward_edge card) s

/-- A fold over indices that stops at the first failed cluster access. -/
def exceptFold (f : IjgpState → ℕ → Except ℕ IjgpState) :
    IjgpState → List ℕ → Except ℕ IjgpState
  | s, [] => .ok s
  | s, v :: rest =>
    match f s v with
    | .error e => .error e
    | .ok s' => exceptFold f s' rest

/-- The first belief-update loop of update() for one variable: read the
first cluster of the variable (m_clusters[v][0], an unchecked vector
access in C++, modelled as fallible), marginalise its belief onto the
variable and rescale (max to 1 for MAP, sum to 1 otherwise). -/
def update_var (card : ℕ → ℕ) (s : IjgpState) (v : ℕ) : Except ℕ IjgpState :=
  match s.m_clusters[v]? with
  | none => .error v
  | some cl =>
    match cl.head? with
    | none => .error v
    | some c =>
      let bel := calc_belief s c
      let mrg := marg s.m_elim_op card bel {v}
      let b2 := if s.m_task = Task.MAP then mrg.divs (mrg.maxAll card)
                else mrg.normalize card
      .ok { s with m_beliefs := s.m_beliefs.set v b2 }

/-- The second belief loop (MAR/PR branch) for one variable: the same
computation with unconditional normalisation. -/
def update_var_mar (card : ℕ → ℕ) (s : IjgpState) (v : ℕ) : Except ℕ IjgpState :=
  match s.m_clusters[v]? with
  | none => .error v
  | some cl =>
    match cl.head? with
    | none => .error v
    | some c =>
      let bel := calc_belief s c
      .ok { s with
        m_beliefs := s.m_beliefs.set v ((marg s.m_elim_op card bel {v}).normalize card) }

/-- The MAP back-substitution for one variable of the reversed order:
condition the incoming belief of its first cluster on every variable
already assigned, then take the argmax. -/
def map_assign_var (card : ℕ → ℕ) (s : IjgpState) (x : ℕ) : Except ℕ IjgpState :=
  match s.m_clusters[x]? with
  | none => .error x
  | some cl =>
    match cl.head? with
    | none => .error x
    | some a =>
      let bel := (s.m_order.reverse.takeWhile (· ≠ x)).foldl
        (fun bel y =>
          if y ∈ s.m_scopes.getD a ∅ then bel.condition y (s.m_best_config.getD y 0)
          else bel)
        (incoming s a)
      .ok { s with m_best_config := s.m_best_config.set x (bel.argmax card) }

/-- update(): recompute every variable's belief, then either recompute and
normalise the beliefs again (MAR/PR) or back-substitute a MAP assignment
along the reversed elimination order. -/
def update (card : ℕ → ℕ) (nvar : ℕ) (s : IjgpState) : Except ℕ IjgpState :=
  match exceptFold (update_var card) s (List.range nvar) with
  | .error v => .error v
  | .ok s1 =>
    if s1.m_task = Task.MAR ∨ s1.m_task = Task.PR then
      exceptFold (update_var_mar card) s1 (List.range nvar)
    else if s1.m_task = Task.MAP then
      exceptFold (map_assign_var card) s1 s1.m_order.reverse
    else .ok s1

/-- The propagate loop with r iterations remaining at iteration counter
iter: forward, backward, update, then the two early-stop checks; the
result carries the number of executed iterations.  The wall clock is
external and passed as the elapsed time per iteration counter. -/
def propagate_go (card : ℕ → ℕ) (lg : ℚ → ℚ) (nvar : ℕ) (stopTime stopObj : ℚ)
    (elapsed : ℕ → ℚ) : ℕ → ℕ → IjgpState → Except ℕ (IjgpState × ℕ)
  | 0, _, s => .ok (s, 0)
  | r + 1, iter, s =>
    let prevZ := s.m_log_z
    let s1 := backward card (forward card lg s)
    match update card nvar s1 with
    | .error v => .error v
    | .ok s2 =>
      let dObj := |s2.m_log_z - prevZ|
      if dObj < stopObj then .ok (s2, 1)
      else if 0 < stopTime ∧ stopTime ≤ elapsed iter then .ok (s2, 1)
      else
        match propagate_go card lg nvar stopTime stopObj elapsed r (iter + 1) s2 with
        | .error v => .error v
        | .ok (s', n) => .ok (s', n + 1)

/-- propagate(nIter, stopTime = −1, stopObj = −1). -/
def propagate (card : ℕ → ℕ) (lg : ℚ → ℚ) (nvar : ℕ) (nIter : ℕ)
    (stopTime stopObj : ℚ) (elapsed : ℕ → ℚ) (s : IjgpState) :
    Except ℕ (IjgpState × ℕ) :=
  propagate_go card lg nvar stopTime stopObj elapsed nIter 1 s

/-- run(): init then propagate with the configured iteration count and the
default stop parameters (solution printing is I/O, outside the state). -/
def run (lg : ℚ → ℚ) (m : Model) (cfg : Cfg) (order : List ℕ) (wstar : ℕ)
    (elapsed : ℕ → ℚ) : Except ℕ (IjgpState × ℕ) :=
  let s0 := init m cfg order wstar
  propagate m.card lg m.nvar s0.num_iter (-1) (-1) elapsed s0

/-- The stored numeric quantities of one forward message before rescaling:
the maximum of the unnormalized message computed at the current state. -/
def forward_mx (card : ℕ → ℕ) (s : IjgpState) (e : ℕ × ℕ) : ℚ :=
  (elim s.m_elim_op card (calc_belief_excl s e.1 e.2)
    ((s.m_scopes.getD e.1 ∅) \ mget s.m_separators e.1 e.2 ∅)).maxAll card

/-- The maxima of the unnormalized forward messages along a schedule
prefix, in pass order. -/
def forward_mx_trace (card : ℕ → ℕ) (lg : ℚ → ℚ) : IjgpState → List (ℕ × ℕ) → List ℚ
  | _, [] => []
  | s, e :: rest =>
    forward_mx card s e :: forward_mx_trace card lg (forward_edge card lg s e) rest

/-! Helper lemmas about list reads and writes. -/

theorem getD_set_self {α : Type _} (l : List α) (i : ℕ) (x d : α) (h : i < l.length) :
    (l.set i x).getD i d = x := by
  rw [List.getD_eq_getElem?_getD, List.getElem?_set_self h]
  rfl

theorem getD_set_neq {α : Type _} (l : List α) (i j : ℕ) (x d : α) (h : i ≠ j) :
    (l.set i x).getD j d = l.getD j d := by
  rw [List.getD_eq_getElem?_getD, List.getElem?_set_ne h, ← List.getD_eq_getElem?_getD]

theorem getD_set_cases {α : Type _} (l : List α) (i j : ℕ) (x d : α) :
    (l.set i x).getD j d = x ∨ (l.set i x).getD j d = l.getD j d := by
  rw [List.getD_eq_getElem?_getD, List.getElem?_set]
  by_cases h : i = j
  · subst h
    by_cases h2 : i < l.length
    · simp only [if_pos rfl, if_pos h2]
      exact Or.inl rfl
    · simp only [if_pos rfl, if_neg h2]
      have hnone : l[i]? = none := List.getElem?_eq_none (by omega)
      rw [List.getD_eq_getElem?_getD l i d, hnone]
      exact Or.inr rfl
  · simp only [if_neg h]
    rw [← List.getD_eq_getElem?_getD]
    exact Or.inr rfl

theorem getD_append_lt {α : Type _} (l l' : List α) (i : ℕ) (d : α) (h : i < l.length) :
    (l ++ l').getD i d = l.getD i d := by
  rw [List.getD_eq_getElem?_getD, List.getElem?_append, if_pos h,
    ← List.getD_eq_getElem?_getD]

theorem getD_concat_len {α : Type _} (l : List α) (x d : α) :
    (l ++ [x]).getD l.length d = x := by
  rw [List.getD_eq_getElem?_getD, List.getElem?_concat_length]
  rfl

theorem getD_replicate_val {α : Type _} (n i : ℕ) (a : α) :
    (List.replicate n a).getD i a = a := by
  rw [List.getD_eq_getElem?_getD, List.getElem?_replicate]
  by_cases h : i < n
  · rw [if_pos h]; rfl
  · rw [if_neg h]; rfl

theorem mem_sinsert (x y : ℕ) (l : List ℕ) : x ∈ sinsert y l ↔ x = y ∨ x ∈ l := by
  induction l with
  | nil => simp [sinsert]
  | cons z zs ih =>
    simp only [sinsert]
    by_cases h1 : y < z
    · rw [if_pos h1]
      simp
    · rw [if_neg h1]
      by_cases h2 : y = z
      · rw [if_pos h2]
        subst h2
        simp only [List.mem_cons]
        tauto
      · rw [if_neg h2]
        simp only [List.mem_cons, ih]
        tauto

theorem mem_sunion (x : ℕ) (a b : List ℕ) : x ∈ sunion a b ↔ x ∈ a ∨ x ∈ b := by
  unfold sunion
  induction b generalizing a with
  | nil => simp
  | cons y ys ih =>
    simp only [List.foldl_cons, ih, mem_sinsert, List.mem_cons]
    tauto

/-! Concrete fixture models used by counterexamples and witnesses. -/

/-- A unary factor on variable 0 with table [1, 2]. -/
def tphi1 : factor := ⟨{0}, fun σ => if σ 0 = 0 then 1 else 2⟩

/-- A pairwise factor on variables 0 and 1. -/
def tphi2 : factor := ⟨{0, 1}, fun σ => (if σ 0 = 0 then 1 else 2) * (if σ 1 = 0 then 3 else 4)⟩

/-- A pairwise soft-equality factor on two given variables. -/
def tpair (u v : ℕ) : factor := ⟨{u, v}, fun σ => if σ u = σ v then 2 else 1⟩

/-- A model with one binary variable and the single unary factor tphi1. -/
def tm1 : Model := ⟨1, fun _ => 2, [tphi1]⟩

/-- A model with two binary variables and factors tphi1, tphi2. -/
def tm2 : Model := ⟨2, fun _ => 2, [tphi1, tphi2]⟩

/-- The loopy triangle on three binary variables (induced width 2 along the
order 0, 1, 2). -/
def tm3 : Model := ⟨3, fun _ => 2, [tpair 0 1, tpair 1 2, tpair 0 2]⟩

/-- A model with two binary variables in which variable 1 occurs in no
factor. -/
def tm2b : Model := ⟨2, fun _ => 2, [tphi1]⟩

/-- The configuration the property string Task=PR produces on the default
configuration. -/
def cfgPR : Cfg :=
  match set_properties defaultCfg "Task=PR" with
  | .ok c => c
  | .error _ => defaultCfg

/-- The configuration the property string iBound=1,Iter=0 produces on the
default configuration. -/
def cfgIter0 : Cfg :=
  match set_properties defaultCfg "iBound=1,Iter=0" with
  | .ok c => c
  | .error _ => defaultCfg

theorem getD_set_eq_ite {α : Type _} (l : List α) (i j : ℕ) (x d : α) :
    (l.set i x).getD j d = if i = j ∧ i < l.length then x else l.getD j d := by
  by_cases h : i = j
  · subst h
    by_cases h2 : i < l.length
    · rw [if_pos (And.intro rfl h2)]
      exact getD_set_self l i x d h2
    · rw [if_neg (fun hc => h2 hc.2), List.set_eq_of_length_le (by omega)]
  · rw [if_neg (fun hc => h hc.1)]
    exact getD_set_neq l i j x d h

/-- A fold preserves an invariant that every step preserves. -/
theorem foldl_inv {α β : Type _} (P : β → Prop) (f : β → α → β) :
    ∀ (l : List α) (b : β), P b → (∀ b x, x ∈ l → P b → P (f b x)) → P (l.foldl f b) := by
  intro l
  induction l with
  | nil => intro b hb _; exact hb
  | cons y ys ih =>
    intro b hb hstep
    exact ih (f b y) (hstep b y (List.mem_cons_self y ys) hb)
      (fun b2 x hx => hstep b2 x (List.mem_cons_of_mem y hx))

theorem mem_vsList (x : ℕ) (vs : VarSet) : x ∈ vsList vs ↔ x ∈ vs := by
  simp only [vsList, List.mem_filter, List.mem_range, decide_eq_true_eq]
  constructor
  · exact fun h => h.2
  · intro h
    exact ⟨Nat.lt_succ_of_le (Finset.le_sup (f := id) h), h⟩

/-- An empty adjacency row of a variable stays empty under erase. -/
theorem eraseAdj_getD_empty (vin : List (List ℕ)) (i : ℕ) (vs : VarSet) (v : ℕ)
    (h : vin.getD v [] = []) : (eraseAdj vin i vs).getD v [] = [] := by
  unfold eraseAdj
  refine foldl_inv (fun vn => vn.getD v [] = []) _ (vsList vs) vin h ?_
  intro vn w _ hvn
  rw [getD_set_eq_ite]
  by_cases hc : w = v ∧ w < vn.length
  · rw [if_pos hc, hc.1, hvn]
    rfl
  · rw [if_neg hc]
    exact hvn

/-- An adjacency row of a variable outside the inserted scope is
untouched. -/
theorem insertAdj_getD_not_mem (vin : List (List ℕ)) (i : ℕ) (vs : VarSet) (v : ℕ)
    (hv : v ∉ vs) : (insertAdj vin i vs).getD v [] = vin.getD v [] := by
  unfold insertAdj
  refine foldl_inv (fun vn => vn.getD v [] = vin.getD v []) _ (vsList vs) vin rfl ?_
  intro vn w hw hvn
  rw [getD_set_eq_ite]
  have hwv : w ≠ v := fun he => hv (he ▸ (mem_vsList w vs).mp hw)
  rw [if_neg (fun hc => hwv hc.1)]
  exact hvn

/-- Freedom of the greedy bucket state from a variable no live scope
holds: no fin scope contains it and its adjacency row is empty. -/
def NoVarBucket (v : ℕ) (b : BucketSt) : Prop :=
  (∀ k, v ∉ b.fin.getD k ∅) ∧ b.vin.getD v [] = []

theorem mergeStep_novar (ib x v : ℕ) (b b' : BucketSt)
    (hm : mergeStep ib x b = some b') (h : NoVarBucket v b) : NoVarBucket v b' := by
  cases hp : pickTop b.scores with
  | none =>
    simp only [mergeStep, hp] at hm
    exact absurd hm (by simp)
  | some top =>
    by_cases hneg : top.1 < 0
    · simp only [mergeStep, hp, if_pos hneg] at hm
      exact absurd hm (by simp)
    · simp only [mergeStep, hp, if_neg hneg, Option.some.injEq] at hm
      subst hm
      constructor
      · intro k
        rw [getD_set_eq_ite]
        by_cases hc1 : top.2.1 = k ∧ top.2.1 < (b.fin.set top.2.2 (b.fin.getD top.2.2 ∅ ∪ b.fin.getD top.2.1 ∅)).length
        · rw [if_pos hc1]
          exact Finset.not_mem_empty v
        · rw [if_neg hc1, getD_set_eq_ite]
          by_cases hc2 : top.2.2 = k ∧ top.2.2 < b.fin.length
          · rw [if_pos hc2]
            intro hv
            rcases Finset.mem_union.mp hv with hv1 | hv1
            · exact h.1 top.2.2 hv1
            · exact h.1 top.2.1 hv1
          · rw [if_neg hc2]
            exact h.1 k
      · exact eraseAdj_getD_empty _ _ _ _ h.2

theorem greedyLoop_novar (ib x v : ℕ) :
    ∀ (fuel : ℕ) (b : BucketSt), NoVarBucket v b → NoVarBucket v (greedyLoop ib x fuel b) := by
  intro fuel
  induction fuel with
  | zero => intro b h; exact h
  | succ fuel ih =>
    intro b h
    unfold greedyLoop
    cases hm : mergeStep ib x b with
    | none => exact h
    | some b' => exact ih b' (mergeStep_novar ib x v b b' hm h)

/-- Freedom of the build state from a variable no original factor
mentions: no fin scope contains it, its adjacency row is empty and its
cluster list is empty. -/
def NoVarBuild (v : ℕ) (st : BuildSt) : Prop :=
  (∀ k, v ∉ st.fin.getD k ∅) ∧ st.vin.getD v [] = [] ∧ st.clusters.getD v [] = []

theorem createCluster_novar (x v : ℕ) (hxv : x ≠ v) (st : BuildSt) (i : ℕ)
    (h : NoVarBuild v st) : NoVarBuild v (createCluster x st i) := by
  refine ⟨?_, ?_, ?_⟩
  · intro k
    show v ∉ (st.fin.set i ((st.fin.getD i ∅).erase x)).getD k ∅
    rw [getD_set_eq_ite]
    by_cases hc : i = k ∧ i < st.fin.length
    · rw [if_pos hc]
      intro hv
      exact h.1 i (Finset.mem_of_mem_erase hv)
    · rw [if_neg hc]
      exact h.1 k
  · show (insertAdj st.vin i ((st.fin.getD i ∅).erase x)).getD v [] = []
    rw [insertAdj_getD_not_mem]
    · exact h.2.1
    · intro hv
      exact h.1 i (Finset.mem_of_mem_erase hv)
  · show (st.clusters.set x (sinsert st.ncl (st.clusters.getD x []))).getD v [] = []
    rw [getD_set_eq_ite, if_neg (fun hc => hxv hc.1)]
    exact h.2.2

theorem processVar_novar (ib x v : ℕ) (st : BuildSt) (h : NoVarBuild v st) :
    NoVarBuild v (processVar ib st x) := by
  unfold processVar
  by_cases hg : x ≥ st.vin.length ∨ st.vin.getD x [] = []
  · rw [if_pos hg]
    exact h
  · rw [if_neg hg]
    have hxv : x ≠ v := by
      intro he
      subst he
      exact (not_or.mp hg).2 h.2.1
    have hb1 : NoVarBucket v (greedyLoop ib x (st.vin.getD x []).length
        ⟨st.fin, st.vin, st.Orig, st.New, st.vin.getD x [],
          initScores (fun i j => score ib st.fin x i j) (st.vin.getD x [])⟩) :=
      greedyLoop_novar ib x v _ _ ⟨h.1, h.2.1⟩
    refine ⟨?_, ?_, ?_⟩
    all_goals
      have hfold : NoVarBuild v (((greedyLoop ib x (st.vin.getD x []).length
          ⟨st.fin, st.vin, st.Orig, st.New, st.vin.getD x [],
            initScores (fun i j => score ib st.fin x i j) (st.vin.getD x [])⟩).ids).foldl
          (createCluster x)
          { st with
            fin := (greedyLoop ib x (st.vin.getD x []).length
              ⟨st.fin, st.vin, st.Orig, st.New, st.vin.getD x [],
                initScores (fun i j => score ib st.fin x i j) (st.vin.getD x [])⟩).fin,
            vin := (greedyLoop ib x (st.vin.getD x []).length
              ⟨st.fin, st.vin, st.Orig, st.New, st.vin.getD x [],
                initScores (fun i j => score ib st.fin x i j) (st.vin.getD x [])⟩).vin,
            Orig := (greedyLoop ib x (st.vin.getD x []).length
              ⟨st.fin, st.vin, st.Orig, st.New, st.vin.getD x [],
                initScores (fun i j => score ib st.fin x i j) (st.vin.getD x [])⟩).Orig,
            New := (greedyLoop ib x (st.vin.getD x []).length
              ⟨st.fin, st.vin, st.Orig, st.New, st.vin.getD x [],
                initScores (fun i j => score ib st.fin x i j) (st.vin.getD x [])⟩).New }) :=
        foldl_inv (NoVarBuild v) (createCluster x) _ _
          ⟨hb1.1, hb1.2, h.2.2⟩
          (fun b i _ hb => createCluster_novar x v hxv b i hb)
    · exact hfold.1
    · exact hfold.2.1
    · exact hfold.2.2

/-- The scope of an original factor of the model. -/
def scopeOf (m : Model) (j : ℕ) : VarSet := (m.factors.getD j factorOne).vars

/-- Structural well-formedness of the build state: cluster-indexed lists
grow in lockstep with the cluster count, incoming lists and schedule
edges point below the cluster count with every edge going from a lower
to a higher index, and the recorded original factors of a live scope or
a created cluster fit inside it. -/
structure WFB (m : Model) (st : BuildSt) : Prop where
  origs_len : st.origs.length = st.ncl
  cscopes_len : st.cscopes.length = st.ncl
  new_lt : ∀ k, ∀ j ∈ st.New.getD k [], j < st.ncl
  sched_lt : ∀ e ∈ st.sched, e.1 < e.2 ∧ e.2 < st.ncl
  orig_sub : ∀ k, ∀ j ∈ st.Orig.getD k [], scopeOf m j ⊆ st.fin.getD k ∅
  origs_sub : ∀ i, ∀ j ∈ st.origs.getD i [], scopeOf m j ⊆ st.cscopes.getD i ∅
  fin_len : st.fin.length = m.factors.length
  orig_len : st.Orig.length = m.factors.length

/-- The part of the well-formedness the greedy aggregation can touch. -/
structure WFBucket (m : Model) (ncl : ℕ) (b : BucketSt) : Prop where
  new_lt : ∀ k, ∀ j ∈ b.New.getD k [], j < ncl
  orig_sub : ∀ k, ∀ j ∈ b.Orig.getD k [], scopeOf m j ⊆ b.fin.getD k ∅
  fin_len : b.fin.length = m.factors.length
  orig_len : b.Orig.length = m.factors.length

theorem getD_set_set_getD {α : Type _} (l : List α) (i1 i2 k : ℕ) (x1 x2 d : α) :
    ((l.set i2 x2).set i1 x1).getD k d =
      if i1 = k ∧ i1 < l.length then x1
      else if i2 = k ∧ i2 < l.length then x2
      else l.getD k d := by
  rw [getD_set_eq_ite, List.length_set, getD_set_eq_ite]

theorem mergeStep_wfbucket (m : Model) (ib x ncl : ℕ) (b b' : BucketSt)
    (hm : mergeStep ib x b = some b') (h : WFBucket m ncl b) : WFBucket m ncl b' := by
  cases hp : pickTop b.scores with
  | none =>
    simp only [mergeStep, hp] at hm
    exact absurd hm (by simp)
  | some top =>
    by_cases hneg : top.1 < 0
    · simp only [mergeStep, hp, if_pos hneg] at hm
      exact absurd hm (by simp)
    · simp only [mergeStep, hp, if_neg hneg, Option.some.injEq] at hm
      subst hm
      have hlen : b.Orig.length = b.fin.length := h.orig_len.trans h.fin_len.symm
      refine ⟨?_, ?_, ?_, ?_⟩
      · intro k j hj
        rw [getD_set_set_getD] at hj
        by_cases h1 : top.2.1 = k ∧ top.2.1 < b.New.length
        · rw [if_pos h1] at hj
          exact absurd hj (List.not_mem_nil j)
        · rw [if_neg h1] at hj
          by_cases h2 : top.2.2 = k ∧ top.2.2 < b.New.length
          · rw [if_pos h2] at hj
            rcases (mem_sunion j _ _).mp hj with hj1 | hj1
            · exact h.new_lt top.2.2 j hj1
            · exact h.new_lt top.2.1 j hj1
          · rw [if_neg h2] at hj
            exact h.new_lt k j hj
      · intro k j hj
        rw [getD_set_set_getD] at hj
        rw [getD_set_set_getD]
        by_cases h1 : top.2.1 = k ∧ top.2.1 < b.Orig.length
        · rw [if_pos h1] at hj
          exact absurd hj (List.not_mem_nil j)
        · rw [if_neg h1] at hj
          have h1f : ¬(top.2.1 = k ∧ top.2.1 < b.fin.length) := by
            intro hc
            refine h1 ⟨hc.1, ?_⟩
            have := hc.2
            omega
          rw [if_neg h1f]
          by_cases h2 : top.2.2 = k ∧ top.2.2 < b.Orig.length
          · rw [if_pos h2] at hj
            have h2f : top.2.2 = k ∧ top.2.2 < b.fin.length := by
              refine ⟨h2.1, ?_⟩
              have := h2.2
              omega
            rw [if_pos h2f]
            rcases (mem_sunion j _ _).mp hj with hj1 | hj1
            · intro w hw
              exact Finset.mem_union_left _ (h.orig_sub top.2.2 j hj1 hw)
            · intro w hw
              exact Finset.mem_union_right _ (h.orig_sub top.2.1 j hj1 hw)
          · rw [if_neg h2] at hj
            have h2f : ¬(top.2.2 = k ∧ top.2.2 < b.fin.length) := by
              intro hc
              refine h2 ⟨hc.1, ?_⟩
              have := hc.2
              omega
            rw [if_neg h2f]
            exact h.orig_sub k j hj
      · rw [List.length_set, List.length_set]
        exact h.fin_len
      · rw [List.length_set, List.length_set]
        exact h.orig_len

theorem greedyLoop_wfbucket (m : Model) (ib x ncl : ℕ) :
    ∀ (fuel : ℕ) (b : BucketSt), WFBucket m ncl b →
      WFBucket m ncl (greedyLoop ib x fuel b) := by
  intro fuel
  induction fuel with
  | zero => intro b h; exact h
  | succ fuel ih =>
    intro b h
    unfold greedyLoop
    cases hm : mergeStep ib x b with
    | none => exact h
    | some b2 => exact ih b2 (mergeStep_wfbucket m ib x ncl b b2 hm h)


theorem getD_append_singleton {α : Type _} (l : List α) (x d : α) (i : ℕ) :
    (l ++ [x]).getD i d
      = if i < l.length then l.getD i d else if i = l.length then x else d := by
  by_cases h1 : i < l.length
  · rw [if_pos h1]
    exact getD_append_lt l [x] i d h1
  · rw [if_neg h1]
    by_cases h2 : i = l.length
    · subst h2
      rw [if_pos rfl]
      exact getD_concat_len l x d
    · rw [if_neg h2, List.getD_eq_getElem?_getD]
      have hn : (l ++ [x])[i]? = none := by
        apply List.getElem?_eq_none
        simp only [List.length_append, List.length_singleton]
        omega
      rw [hn]
      rfl

theorem mem_consecPairs (c k : ℕ) (e : ℕ × ℕ) (h : e ∈ consecPairs c k) :
    e.1 < e.2 ∧ e.2 < c + k := by
  unfold consecPairs at h
  rcases List.mem_map.mp h with ⟨i, hi, he⟩
  subst he
  have := List.mem_range.mp hi
  exact ⟨by omega, by omega⟩

theorem createCluster_wf (m : Model) (x : ℕ) (st : BuildSt) (i : ℕ) (h : WFB m st) :
    WFB m (createCluster x st i) := by
  refine ⟨?_, ?_, ?_, ?_, ?_, ?_, ?_, ?_⟩
  · show (st.origs ++ [st.Orig.getD i []]).length = st.ncl + 1
    rw [List.length_append, h.origs_len]
    rfl
  · show (st.cscopes ++ [st.fin.getD i ∅]).length = st.ncl + 1
    rw [List.length_append, h.cscopes_len]
    rfl
  · intro k j hj
    replace hj : j ∈ (st.New.set i [st.ncl]).getD k [] := hj
    rw [getD_set_eq_ite] at hj
    by_cases hc : i = k ∧ i < st.New.length
    · rw [if_pos hc] at hj
      have hje : j = st.ncl := by simpa using hj
      show j < st.ncl + 1
      omega
    · rw [if_neg hc] at hj
      have := h.new_lt k j hj
      show j < st.ncl + 1
      omega
  · intro e he
    replace he : e ∈ st.sched ++ (st.New.getD i []).map fun j => (j, st.ncl) := he
    show e.1 < e.2 ∧ e.2 < st.ncl + 1
    rcases List.mem_append.mp he with he1 | he1
    · have := h.sched_lt e he1
      exact ⟨this.1, by omega⟩
    · rcases List.mem_map.mp he1 with ⟨j, hj, hej⟩
      subst hej
      have := h.new_lt i j hj
      exact ⟨this, by omega⟩
  · intro k j hj
    replace hj : j ∈ (st.Orig.set i []).getD k [] := hj
    rw [getD_set_eq_ite] at hj
    by_cases hc : i = k ∧ i < st.Orig.length
    · rw [if_pos hc] at hj
      exact absurd hj (List.not_mem_nil j)
    · rw [if_neg hc] at hj
      show scopeOf m j ⊆ (st.fin.set i ((st.fin.getD i ∅).erase x)).getD k ∅
      rw [getD_set_eq_ite]
      have hcf : ¬(i = k ∧ i < st.fin.length) := by
        intro hc2
        refine hc ⟨hc2.1, ?_⟩
        have h1 := h.fin_len
        have h2 := h.orig_len
        have h3 := hc2.2
        omega
      rw [if_neg hcf]
      exact h.orig_sub k j hj
  · intro idx j hj
    replace hj : j ∈ (st.origs ++ [st.Orig.getD i []]).getD idx [] := hj
    show scopeOf m j ⊆ (st.cscopes ++ [st.fin.getD i ∅]).getD idx ∅
    rw [getD_append_singleton] at hj
    rw [getD_append_singleton]
    have hlen : st.cscopes.length = st.origs.length := h.cscopes_len.trans h.origs_len.symm
    by_cases h1 : idx < st.origs.length
    · rw [if_pos h1] at hj
      rw [if_pos (by omega)]
      exact h.origs_sub idx j hj
    · rw [if_neg h1] at hj
      rw [if_neg (by omega)]
      by_cases h2 : idx = st.origs.length
      · rw [if_pos h2] at hj
        rw [if_pos (by omega)]
        exact h.orig_sub i j hj
      · rw [if_neg h2] at hj
        exact absurd hj (List.not_mem_nil j)
  · show (st.fin.set i ((st.fin.getD i ∅).erase x)).length = m.factors.length
    rw [List.length_set]
    exact h.fin_len
  · show (st.Orig.set i []).length = m.factors.length
    rw [List.length_set]
    exact h.orig_len

theorem foldl_createCluster_ncl (x : ℕ) (ids : List ℕ) :
    ∀ st : BuildSt, (ids.foldl (createCluster x) st).ncl = st.ncl + ids.length := by
  induction ids with
  | nil =>
    intro st
    simp
  | cons i is ih =>
    intro st
    rw [List.foldl_cons, ih]
    show st.ncl + 1 + is.length = st.ncl + (is.length + 1)
    omega

/-- Appending in-bound chain edges keeps the build state well formed. -/
theorem WFB_append_consec (m : Model) (st : BuildSt) (c k : ℕ) (h : WFB m st)
    (hc : c + k ≤ st.ncl) : WFB m { st with sched := st.sched ++ consecPairs c k } := by
  refine ⟨h.origs_len, h.cscopes_len, h.new_lt, ?_, h.orig_sub, h.origs_sub,
    h.fin_len, h.orig_len⟩
  intro e he
  show e.1 < e.2 ∧ e.2 < st.ncl
  rcases List.mem_append.mp he with he1 | he1
  · exact h.sched_lt e he1
  · have := mem_consecPairs c k e he1
    exact ⟨this.1, by omega⟩

theorem processVar_wf (m : Model) (ib x : ℕ) (st : BuildSt) (h : WFB m st) :
    WFB m (processVar ib st x) := by
  unfold processVar
  by_cases hg : x ≥ st.vin.length ∨ st.vin.getD x [] = []
  · rwa [if_pos hg]
  · rw [if_neg hg]
    set b1 := greedyLoop ib x (st.vin.getD x []).length
      ⟨st.fin, st.vin, st.Orig, st.New, st.vin.getD x [],
        initScores (fun i j => score ib st.fin x i j) (st.vin.getD x [])⟩ with hb1def
    have hb1 : WFBucket m st.ncl b1 :=
      greedyLoop_wfbucket m ib x st.ncl _ _
        ⟨h.new_lt, h.orig_sub, h.fin_len, h.orig_len⟩
    have hst1 : WFB m { st with fin := b1.fin, vin := b1.vin, Orig := b1.Orig, New := b1.New } :=
      ⟨h.origs_len, h.cscopes_len, hb1.new_lt, h.sched_lt, hb1.orig_sub,
        h.origs_sub, hb1.fin_len, hb1.orig_len⟩
    refine WFB_append_consec m _ st.ncl b1.ids.length ?_ ?_
    · exact foldl_inv (WFB m) (createCluster x) b1.ids _ hst1
        fun st2 i _ h2 => createCluster_wf m x st2 i h2
    · rw [foldl_createCluster_ncl]

theorem initBuild_wf (m : Model) (ib : ℕ) (order : List ℕ) :
    WFB m (initBuild m ib order) := by
  unfold initBuild
  refine foldl_inv (WFB m) (processVar ib) order _
    ⟨rfl, rfl, ?_, ?_, ?_, ?_, ?_, ?_⟩ fun st x _ h2 => processVar_wf m ib x st h2
  · intro k j hj
    rw [getD_replicate_val] at hj
    exact absurd hj (List.not_mem_nil j)
  · intro e he
    exact absurd he (List.not_mem_nil e)
  · intro k j hj
    by_cases hk : k < m.factors.length
    · rw [List.getD_eq_getElem?_getD, List.getElem?_map,
        List.getElem?_range (by simpa using hk)] at hj
      have hjk : j = k := by simpa using hj
      subst hjk
      rw [List.getD_eq_getElem?_getD, List.getElem?_map, List.getElem?_eq_getElem hk]
      show scopeOf m j ⊆ (m.factors[j]).vars
      unfold scopeOf
      rw [List.getD_eq_getElem?_getD, List.getElem?_eq_getElem hk]
      exact Finset.Subset.refl _
    · rw [List.getD_eq_getElem?_getD, List.getElem?_map] at hj
      have hn : (List.range m.factors.length)[k]? = none :=
        List.getElem?_eq_none (by simpa using hk)
      rw [hn] at hj
      exact absurd hj (List.not_mem_nil j)
  · intro idx j hj
    exact absurd hj (List.not_mem_nil j)
  · exact List.length_map _ _
  · rw [List.length_map, List.length_range]

theorem mget_mset_self {α : Type _} (mat : List (List α)) (a b : ℕ) (v d : α)
    (ha : a < mat.length) (hb : b < (mat.getD a []).length) :
    mget (mset mat a b v) a b d = v := by
  unfold mset mget
  rw [getD_set_eq_ite, if_pos ⟨rfl, ha⟩, getD_set_eq_ite, if_pos ⟨rfl, hb⟩]

theorem mget_mset_ne {α : Type _} (mat : List (List α)) (a b x y : ℕ) (v d : α)
    (h : a ≠ x ∨ b ≠ y) : mget (mset mat a b v) x y d = mget mat x y d := by
  unfold mset mget
  rw [getD_set_eq_ite]
  by_cases h1 : a = x ∧ a < mat.length
  · rw [if_pos h1, getD_set_eq_ite, if_neg ?_, h1.1]
    rcases h with h | h
    · exact absurd h1.1 h
    · exact fun hc => h hc.1
  · rw [if_neg h1]

theorem mget_mset_getD {α : Type _} (mat : List (List α)) (a b : ℕ) (v d : α) :
    mget (mset mat a b v) a b d = v ∨ mget (mset mat a b v) a b d = mget mat a b d := by
  by_cases ha : a < mat.length
  · by_cases hb : b < (mat.getD a []).length
    · exact Or.inl (mget_mset_self mat a b v d ha hb)
    · right
      unfold mset mget
      rw [getD_set_eq_ite, if_pos ⟨rfl, ha⟩, getD_set_eq_ite, if_neg (fun hc => hb hc.2)]
  · right
    unfold mset mget
    rw [getD_set_eq_ite, if_neg (fun hc => ha hc.2)]

/-- Square-matrix dimensions of a nested-list matrix. -/
def MatDims {α : Type _} (C : ℕ) (mat : List (List α)) : Prop :=
  mat.length = C ∧ ∀ i, i < C → (mat.getD i []).length = C

theorem MatDims_mset {α : Type _} (C : ℕ) (mat : List (List α)) (a b : ℕ) (v : α)
    (h : MatDims C mat) : MatDims C (mset mat a b v) := by
  constructor
  · show (mat.set a _).length = C
    rw [List.length_set]
    exact h.1
  · intro i hi
    show ((mat.set a _).getD i []).length = C
    rw [getD_set_eq_ite]
    by_cases hc : a = i ∧ a < mat.length
    · rw [if_pos hc, List.length_set]
      rw [hc.1] at *
      exact h.2 i hi
    · rw [if_neg hc]
      exact h.2 i hi

theorem MatDims_replicate {α : Type _} (C : ℕ) (z : α) :
    MatDims C (List.replicate C (List.replicate C z)) := by
  constructor
  · exact List.length_replicate C _
  · intro i hi
    rw [List.getD_eq_getElem?_getD, List.getElem?_replicate, if_pos hi]
    show (List.replicate C z).length = C
    exact List.length_replicate C z

/-- Entry (x, y) holds the canonical separator of x and y. -/
def CanoAt (scopes : List VarSet) (sp : List (List VarSet)) (x y : ℕ) : Prop :=
  mget sp x y ∅ = (scopes.getD x ∅) ∩ (scopes.getD y ∅)

theorem CanoAt_mset (scopes : List VarSet) (sp : List (List VarSet)) (a b x y : ℕ)
    (h : CanoAt scopes sp x y) :
    CanoAt scopes (mset sp a b ((scopes.getD a ∅) ∩ (scopes.getD b ∅))) x y := by
  by_cases hc : a = x ∧ b = y
  · unfold CanoAt at h ⊢
    rcases mget_mset_getD sp a b ((scopes.getD a ∅) ∩ (scopes.getD b ∅)) ∅ with h1 | h1
    · rw [← hc.1, ← hc.2]
      exact h1
    · rw [← hc.1, ← hc.2]
      rw [← hc.1, ← hc.2] at h
      exact h1.trans h
  · unfold CanoAt at h ⊢
    rw [mget_mset_ne sp a b x y _ ∅ (by tauto)]
    exact h

theorem sep_step_preserves (scopes : List VarSet) (sp : List (List VarSet))
    (e : ℕ × ℕ) (x y : ℕ) (h : CanoAt scopes sp x y) :
    CanoAt scopes
      (if e.1 > e.2 then sp
       else mset (mset sp e.1 e.2 ((scopes.getD e.1 ∅) ∩ (scopes.getD e.2 ∅)))
         e.2 e.1 ((scopes.getD e.1 ∅) ∩ (scopes.getD e.2 ∅))) x y := by
  by_cases hg : e.1 > e.2
  · rwa [if_pos hg]
  · rw [if_neg hg]
    have hcomm : (scopes.getD e.2 ∅) ∩ (scopes.getD e.1 ∅)
        = (scopes.getD e.1 ∅) ∩ (scopes.getD e.2 ∅) := Finset.inter_comm _ _
    have h2 := CanoAt_mset scopes _ e.2 e.1 x y (CanoAt_mset scopes sp e.1 e.2 x y h)
    rw [hcomm] at h2
    exact h2

theorem sep_fold_preserves (scopes : List VarSet) (l : List (ℕ × ℕ))
    (sp : List (List VarSet)) (x y : ℕ) (h : CanoAt scopes sp x y) :
    CanoAt scopes
      (l.foldl (fun sp2 e =>
        if e.1 > e.2 then sp2
        else
          mset (mset sp2 e.1 e.2 ((scopes.getD e.1 ∅) ∩ (scopes.getD e.2 ∅)))
            e.2 e.1 ((scopes.getD e.1 ∅) ∩ (scopes.getD e.2 ∅))) sp) x y :=
  foldl_inv (fun sp2 => CanoAt scopes sp2 x y) _ l sp h
    fun sp2 e _ h2 => sep_step_preserves scopes sp2 e x y h2

theorem sep_step_dims (scopes : List VarSet) (C : ℕ) (sp : List (List VarSet))
    (e : ℕ × ℕ) (h : MatDims C sp) :
    MatDims C
      (if e.1 > e.2 then sp
       else mset (mset sp e.1 e.2 ((scopes.getD e.1 ∅) ∩ (scopes.getD e.2 ∅)))
         e.2 e.1 ((scopes.getD e.1 ∅) ∩ (scopes.getD e.2 ∅))) := by
  by_cases hg : e.1 > e.2
  · rwa [if_pos hg]
  · rw [if_neg hg]
    exact MatDims_mset C _ _ _ _ (MatDims_mset C _ _ _ _ h)

theorem sep_fold_establish (scopes : List VarSet) (C : ℕ) :
    ∀ (l : List (ℕ × ℕ)) (sp : List (List VarSet)), MatDims C sp →
      (∀ e ∈ l, e.1 < e.2 ∧ e.2 < C) →
      ∀ e ∈ l, CanoAt scopes
        (l.foldl (fun sp2 e2 =>
          if e2.1 > e2.2 then sp2
          else
            mset (mset sp2 e2.1 e2.2 ((scopes.getD e2.1 ∅) ∩ (scopes.getD e2.2 ∅)))
              e2.2 e2.1 ((scopes.getD e2.1 ∅) ∩ (scopes.getD e2.2 ∅))) sp) e.1 e.2 := by
  intro l
  induction l with
  | nil =>
    intro sp _ _ e he
    exact absurd he (List.not_mem_nil e)
  | cons hd tl ih =>
    intro sp hdims hb e he
    rw [List.foldl_cons]
    have hfb := hb hd (List.mem_cons_self hd tl)
    have hd1 := sep_step_dims scopes C sp hd hdims
    rcases List.mem_cons.mp he with he1 | he1
    · subst he1
      refine sep_fold_preserves scopes tl _ e.1 e.2 ?_
      have hne : ¬(e.1 > e.2) := by omega
      rw [if_neg hne]
      have hlt1 : e.1 < sp.length := by
        rw [hdims.1]
        omega
      have hlt2 : e.2 < (sp.getD e.1 []).length := by
        rw [hdims.2 e.1 (by omega)]
        exact hfb.2
      unfold CanoAt
      rw [mget_mset_ne _ e.2 e.1 e.1 e.2 _ ∅ (Or.inl (by omega))]
      exact mget_mset_self sp e.1 e.2 _ ∅ hlt1 hlt2
    · exact ih _ hd1 (fun e2 he2 => hb e2 (List.mem_cons_of_mem hd he2)) e he1

/-- For every recorded edge, the separator matrix holds the intersection
of the two cluster scopes. -/
theorem mkSeparators_spec (scopes : List VarSet) (edges : List (ℕ × ℕ)) (C : ℕ)
    (hE : ∀ e ∈ edges, e.1 < e.2 ∧ e.2 < C) :
    ∀ e ∈ edges, mget (mkSeparators scopes edges C) e.1 e.2 ∅
      = (scopes.getD e.1 ∅) ∩ (scopes.getD e.2 ∅) := by
  intro e he
  exact sep_fold_establish scopes C edges
    (List.replicate C (List.replicate C ∅)) (MatDims_replicate C ∅) hE e he

/-- Soundness of the incoming and outgoing lists: every recorded neighbour
comes from a schedule edge. -/
theorem mkInOut_spec (edges : List (ℕ × ℕ)) (C : ℕ) :
    (∀ a p, p ∈ (mkInOut edges C).1.getD a [] → (p, a) ∈ edges) ∧
    (∀ a q, q ∈ (mkInOut edges C).2.getD a [] → (a, q) ∈ edges) := by
  unfold mkInOut
  refine foldl_inv
    (fun io : List (List ℕ) × List (List ℕ) =>
      (∀ a p, p ∈ io.1.getD a [] → (p, a) ∈ edges) ∧
      (∀ a q, q ∈ io.2.getD a [] → (a, q) ∈ edges))
    (fun io e =>
      (io.1.set e.2 (sinsert e.1 (io.1.getD e.2 [])),
       io.2.set e.1 (sinsert e.2 (io.2.getD e.1 []))))
    edges (List.replicate C [], List.replicate C []) ⟨?_, ?_⟩ ?_
  · intro a p hp
    rw [List.getD_eq_getElem?_getD, List.getElem?_replicate] at hp
    by_cases ha : a < C
    · rw [if_pos ha] at hp
      exact absurd hp (List.not_mem_nil p)
    · rw [if_neg ha] at hp
      exact absurd hp (List.not_mem_nil p)
  · intro a q hq
    rw [List.getD_eq_getElem?_getD, List.getElem?_replicate] at hq
    by_cases ha : a < C
    · rw [if_pos ha] at hq
      exact absurd hq (List.not_mem_nil q)
    · rw [if_neg ha] at hq
      exact absurd hq (List.not_mem_nil q)
  · intro io e he hio
    constructor
    · intro a p hp
      rw [getD_set_eq_ite] at hp
      by_cases hc : e.2 = a ∧ e.2 < io.1.length
      · rw [if_pos hc] at hp
        rcases (mem_sinsert p e.1 _).mp hp with hp1 | hp1
        · rw [hp1, ← hc.1]
          exact he
        · exact hc.1 ▸ hio.1 e.2 p hp1
      · rw [if_neg hc] at hp
        exact hio.1 a p hp
    · intro a q hq
      rw [getD_set_eq_ite] at hq
      by_cases hc : e.1 = a ∧ e.1 < io.2.length
      · rw [if_pos hc] at hq
        rcases (mem_sinsert q e.2 _).mp hq with hq1 | hq1
        · rw [hq1, ← hc.1]
          exact he
        · exact hc.1 ▸ hio.2 e.1 q hq1
      · rw [if_neg hc] at hq
        exact hio.2 a q hq

/-- Entry (x, y) of the edge-index matrix points at a schedule position
holding the edge (x, y). -/
def EIdxAt (edges : List (ℕ × ℕ)) (M : List (List ℕ)) (x y : ℕ) : Prop :=
  edges[mget M x y 0]? = some (x, y)

theorem eidx_step_preserves (edges : List (ℕ × ℕ)) (M : List (List ℕ))
    (ie : ℕ × (ℕ × ℕ)) (x y : ℕ) (hie : edges[ie.1]? = some ie.2)
    (h : EIdxAt edges M x y) : EIdxAt edges (mset M ie.2.1 ie.2.2 ie.1) x y := by
  obtain ⟨i, u, v⟩ := ie
  unfold EIdxAt at h ⊢
  dsimp only at hie ⊢
  by_cases hc : u = x ∧ v = y
  · rcases mget_mset_getD M u v i 0 with h1 | h1
    · rw [← hc.1, ← hc.2, h1]
      exact hie
    · rw [← hc.1, ← hc.2, h1]
      rw [← hc.1, ← hc.2] at h
      exact h
  · rw [mget_mset_ne M u v x y _ 0 (by tauto)]
    exact h

theorem eidx_fold_establish (edges : List (ℕ × ℕ)) (C : ℕ) :
    ∀ (l : List (ℕ × (ℕ × ℕ))) (M : List (List ℕ)), MatDims C M →
      (∀ ie ∈ l, edges[ie.1]? = some ie.2 ∧ ie.2.1 < ie.2.2 ∧ ie.2.2 < C) →
      ∀ ie ∈ l, EIdxAt edges
        (l.foldl (fun M2 ie2 => mset M2 ie2.2.1 ie2.2.2 ie2.1) M) ie.2.1 ie.2.2 := by
  intro l
  induction l with
  | nil =>
    intro M _ _ ie hie
    exact absurd hie (List.not_mem_nil ie)
  | cons hd tl ih =>
    intro M hdims hb ie hie
    rw [List.foldl_cons]
    have hd1 : MatDims C (mset M hd.2.1 hd.2.2 hd.1) := MatDims_mset C M _ _ _ hdims
    rcases List.mem_cons.mp hie with hie1 | hie1
    · subst hie1
      have hfb := hb ie (List.mem_cons_self ie tl)
      have hP : EIdxAt edges (mset M ie.2.1 ie.2.2 ie.1) ie.2.1 ie.2.2 := by
        unfold EIdxAt
        have h1 : ie.2.1 < M.length := by
          rw [hdims.1]
          omega
        have h2 : ie.2.2 < (M.getD ie.2.1 []).length := by
          rw [hdims.2 ie.2.1 (by omega)]
          exact hfb.2.2
        rw [mget_mset_self M ie.2.1 ie.2.2 ie.1 0 h1 h2, hfb.1]
      refine foldl_inv (fun M2 => EIdxAt edges M2 ie.2.1 ie.2.2) _ tl _ hP ?_
      intro M2 ie2 hie2 h2
      exact eidx_step_preserves edges M2 ie2 ie.2.1 ie.2.2
        (hb ie2 (List.mem_cons_of_mem ie hie2)).1 h2
    · exact ih _ hd1 (fun ie2 hie2 => hb ie2 (List.mem_cons_of_mem hd hie2)) ie hie1

/-- For every schedule edge, the edge-index matrix points back at a
schedule position holding that edge. -/
theorem mkEdgeIdx_spec (edges : List (ℕ × ℕ)) (C : ℕ)
    (hE : ∀ e ∈ edges, e.1 < e.2 ∧ e.2 < C) :
    ∀ e ∈ edges, edges[mget (mkEdgeIdx edges C) e.1 e.2 0]? = some e := by
  intro e he
  rcases List.mem_iff_getElem?.mp he with ⟨i, hi⟩
  have henum : (i, e) ∈ edges.enum := List.mem_enum_iff_getElem?.mpr hi
  have hb : ∀ ie ∈ edges.enum, edges[ie.1]? = some ie.2 ∧ ie.2.1 < ie.2.2 ∧ ie.2.2 < C := by
    intro ie hie
    have h1 := List.mem_enum_iff_getElem?.mp hie
    have h2 := hE ie.2 (List.getElem?_mem h1)
    exact ⟨h1, h2.1, h2.2⟩
  exact eidx_fold_establish edges C edges.enum
    (List.replicate C (List.replicate C 0)) (MatDims_replicate C 0) hb (i, e) henum

/-- The scope of a fold of factor products stays inside a common bound. -/
theorem foldl_mul_vars (g : ℕ → factor) (S : VarSet) (l : List ℕ) :
    ∀ f0 : factor, f0.vars ⊆ S → (∀ j ∈ l, (g j).vars ⊆ S) →
      (l.foldl (fun f j => f.mul (g j)) f0).vars ⊆ S := by
  induction l with
  | nil =>
    intro f0 h0 _
    exact h0
  | cons j js ih =>
    intro f0 h0 hl
    rw [List.foldl_cons]
    refine ih (f0.mul (g j)) ?_ fun j2 hj2 => hl j2 (List.mem_cons_of_mem j hj2)
    intro w hw
    rcases Finset.mem_union.mp hw with hw1 | hw1
    · exact h0 hw1
    · exact hl j (List.mem_cons_self j js) hw1

/-- Every clique potential's scope is inside the recorded cluster scope. -/
theorem mkPotentials_vars (m : Model) (origs : List (List ℕ)) (cscopes : List VarSet)
    (h6 : ∀ i, ∀ j ∈ origs.getD i [], scopeOf m j ⊆ cscopes.getD i ∅) :
    ∀ c, ((mkPotentials m origs).getD c factorOne).vars ⊆ cscopes.getD c ∅ := by
  intro c
  unfold mkPotentials
  rw [List.getD_eq_getElem?_getD, List.getElem?_map]
  cases ho : origs[c]? with
  | none =>
    intro w hw
    exact absurd hw (Finset.not_mem_empty w)
  | some l =>
    have hl : origs.getD c [] = l := by
      rw [List.getD_eq_getElem?_getD, ho]
      rfl
    show (l.foldl (fun f j => f.mul (m.factors.getD j factorOne)) factorOne).vars ⊆ _
    refine foldl_mul_vars _ _ l factorOne ?_ ?_
    · intro w hw
      exact absurd hw (Finset.not_mem_empty w)
    · intro j hj
      rw [← hl] at hj
      exact h6 c j hj

/-- A variable contained in no factor scope has an empty factors-with
list. -/
theorem with_variable_eq_nil (m : Model) (v : ℕ) (hvf : ∀ f ∈ m.factors, v ∉ f.vars) :
    with_variable m v = [] := by
  unfold with_variable
  rw [List.filter_eq_nil_iff]
  intro i _
  simp only [decide_eq_true_eq]
  intro hv
  rw [List.getD_eq_getElem?_getD] at hv
  cases hf : m.factors[i]? with
  | none =>
    rw [hf] at hv
    exact absurd hv (Finset.not_mem_empty v)
  | some f =>
    rw [hf] at hv
    exact hvf f (List.getElem?_mem hf) hv

/-- After the whole schematic construction, a variable contained in no
original factor has no live scope, an empty adjacency row and an empty
cluster list. -/
theorem initBuild_novar (m : Model) (ib : ℕ) (order : List ℕ) (v : ℕ)
    (hvf : ∀ f ∈ m.factors, v ∉ f.vars) : NoVarBuild v (initBuild m ib order) := by
  unfold initBuild
  refine foldl_inv (NoVarBuild v) (processVar ib) order _ ⟨?_, ?_, ?_⟩
    fun st x _ h => processVar_novar ib x v st h
  · intro k hv
    rw [List.getD_eq_getElem?_getD, List.getElem?_map] at hv
    cases hf : m.factors[k]? with
    | none =>
      rw [hf] at hv
      exact absurd hv (Finset.not_mem_empty v)
    | some f =>
      rw [hf] at hv
      exact hvf f (List.getElem?_mem hf) hv
  · rw [List.getD_eq_getElem?_getD, List.getElem?_map]
    by_cases hvn : v < m.nvar
    · rw [List.getElem?_range hvn]
      exact with_variable_eq_nil m v hvf
    · have hnone : (List.range m.nvar)[v]? = none :=
        List.getElem?_eq_none (by simpa using hvn)
      rw [hnone]
      rfl
  · exact getD_replicate_val order.length v []

/-- The clusters entry of a variable is untouched by the bucket of a
different variable. -/
theorem processVar_clusters_ne (ib x v : ℕ) (st : BuildSt) (hxv : x ≠ v) :
    (processVar ib st x).clusters.getD v [] = st.clusters.getD v [] := by
  unfold processVar
  by_cases hg : x ≥ st.vin.length ∨ st.vin.getD x [] = []
  · rw [if_pos hg]
  · rw [if_neg hg]
    refine foldl_inv (fun b : BuildSt => b.clusters.getD v [] = st.clusters.getD v [])
      (createCluster x) _ _ rfl ?_
    intro b i _ hb
    show (b.clusters.set x (sinsert b.ncl (b.clusters.getD x []))).getD v [] = _
    rw [getD_set_eq_ite, if_neg (fun hc => hxv hc.1)]
    exact hb

/-- A variable the elimination order never visits keeps an empty cluster
list through the whole construction. -/
theorem initBuild_clusters_of_not_mem (m : Model) (ib : ℕ) (order : List ℕ) (v : ℕ)
    (hv : v ∉ order) : (initBuild m ib order).clusters.getD v [] = [] := by
  unfold initBuild
  refine foldl_inv (fun b : BuildSt => b.clusters.getD v [] = []) (processVar ib)
    order _ (getD_replicate_val order.length v []) ?_
  intro b x hx hb
  rw [processVar_clusters_ne ib x v b fun he => hv (he ▸ hx)]
  exact hb

/-- The first belief loop fails on a variable whose cluster list is
empty. -/
theorem update_var_error_of_empty (card : ℕ → ℕ) (v : ℕ) (s : IjgpState)
    (h : s.m_clusters.getD v [] = []) : update_var card s v = Except.error v := by
  cases hc : s.m_clusters[v]? with
  | none => simp only [update_var, hc]
  | some cl =>
    rw [List.getD_eq_getElem?_getD, hc] at h
    have hcl : cl = [] := h
    subst hcl
    simp only [update_var, hc, List.head?_nil]

/-- A successful first-loop step leaves the cluster lists unchanged. -/
theorem update_var_ok_clusters (card : ℕ → ℕ) (v : ℕ) (s s' : IjgpState)
    (h : update_var card s v = Except.ok s') : s'.m_clusters = s.m_clusters := by
  cases hc : s.m_clusters[v]? with
  | none =>
    simp only [update_var, hc] at h
    exact absurd h (by simp)
  | some cl =>
    simp only [update_var, hc] at h
    cases hh : cl.head? with
    | none =>
      rw [hh] at h
      simp at h
    | some c =>
      rw [hh] at h
      simp only [Except.ok.injEq] at h
      subst h
      rfl

/-- The first belief loop fails whenever it passes a variable with an
empty cluster list. -/
theorem exceptFold_error_of_empty (card : ℕ → ℕ) (v : ℕ) :
    ∀ (l : List ℕ) (s : IjgpState), v ∈ l → s.m_clusters.getD v [] = [] →
      ∃ w, exceptFold (update_var card) s l = Except.error w := by
  intro l
  induction l with
  | nil =>
    intro s hmem
    exact absurd hmem (List.not_mem_nil v)
  | cons u us ih =>
    intro s hmem hcl
    cases hu : update_var card s u with
    | error e =>
      refine ⟨e, ?_⟩
      simp only [exceptFold, hu]
    | ok s' =>
      have hne : u ≠ v := by
        intro he
        subst he
        rw [update_var_error_of_empty card u s hcl] at hu
        exact absurd hu (by simp)
      have hmem' : v ∈ us := by
        cases List.mem_cons.mp hmem with
        | inl h => exact absurd h.symm hne
        | inr h => exact h
      have hcl' : s'.m_clusters.getD v [] = [] := by
        rw [update_var_ok_clusters card u s s' hu]
        exact hcl
      obtain ⟨w, hw⟩ := ih s' hmem' hcl'
      refine ⟨w, ?_⟩
      simp only [exceptFold, hu, hw]

/-- One full message pass of a propagate iteration: the forward pass
followed by the backward pass. -/
def pass (card : ℕ → ℕ) (lg : ℚ → ℚ) (s : IjgpState) : IjgpState :=
  backward card (forward card lg s)

/-- The scope of an elimination is the scope minus the eliminated set,
whichever operator is configured. -/
theorem elim_vars (op : ElimOp) (card : ℕ → ℕ) (f : factor) (vs : VarSet) :
    (elim op card f vs).vars = f.vars \ vs := by
  cases op <;> rfl

/-- A fold whose every step keeps the scope inside the bound S (given the
accumulator satisfied it) preserves the bound. -/
theorem foldl_vars_sub {β : Type _} (step : factor → β → factor) (S : VarSet) :
    ∀ (l : List β) (f0 : factor),
      (∀ f j, j ∈ l → (step f j).vars ⊆ f.vars ∪ S) → f0.vars ⊆ S →
      (l.foldl step f0).vars ⊆ S := by
  intro l
  induction l with
  | nil =>
    intro f0 _ h0
    exact h0
  | cons j js ih =>
    intro f0 hstep h0
    rw [List.foldl_cons]
    refine ih (step f0 j) (fun f j2 hj2 => hstep f j2 (List.mem_cons_of_mem j hj2)) ?_
    intro w hw
    rcases Finset.mem_union.mp (hstep f0 j (List.mem_cons_self j js) hw) with h | h
    · exact h0 h
    · exact h

/-- The join-graph invariant of the propagation state: separators match
the scope intersections, incoming and outgoing neighbour lists and edge
indices point back into the schedule, clique potentials fit the cluster
scopes, and every stored message fits inside its edge's scope
intersection. -/
structure JG (s : IjgpState) : Prop where
  sep_eq : ∀ e ∈ s.m_schedule,
    mget s.m_separators e.1 e.2 ∅ = (s.m_scopes.getD e.1 ∅) ∩ (s.m_scopes.getD e.2 ∅)
  in_edges : ∀ a p, p ∈ s.m_in.getD a [] → (p, a) ∈ s.m_schedule
  out_edges : ∀ a q, q ∈ s.m_out.getD a [] → (a, q) ∈ s.m_schedule
  eidx : ∀ e ∈ s.m_schedule, s.m_schedule[edge_index s e.1 e.2]? = some e
  pot_sub : ∀ a, (s.m_factors.getD a factorOne).vars ⊆ s.m_scopes.getD a ∅
  fwd_ok : ∀ i e, s.m_schedule[i]? = some e →
    (s.m_forward.getD i factorOne).vars
      ⊆ (s.m_scopes.getD e.1 ∅) ∩ (s.m_scopes.getD e.2 ∅)
  bwd_ok : ∀ i e, s.m_schedule[i]? = some e →
    (s.m_backward.getD i factorOne).vars
      ⊆ (s.m_scopes.getD e.1 ∅) ∩ (s.m_scopes.getD e.2 ∅)

/-- init establishes the join-graph invariant, for every model, every
configuration and every order. -/
theorem JG_init (m : Model) (cfg : Cfg) (order : List ℕ) (wstar : ℕ) :
    JG (init m cfg order wstar) := by
  have hwf := initBuild_wf m cfg.m_ibound order
  refine ⟨?_, ?_, ?_, ?_, ?_, ?_, ?_⟩
  · exact mkSeparators_spec _ _ _ hwf.sched_lt
  · exact (mkInOut_spec _ _).1
  · exact (mkInOut_spec _ _).2
  · exact mkEdgeIdx_spec _ _ hwf.sched_lt
  · exact mkPotentials_vars m _ _ hwf.origs_sub
  · intro i e _
    show ((List.replicate (initBuild m cfg.m_ibound order).sched.length
        factorOne).getD i factorOne).vars ⊆ _
    rw [getD_replicate_val]
    intro w hw
    exact absurd hw (Finset.not_mem_empty w)
  · intro i e _
    show ((List.replicate (initBuild m cfg.m_ibound order).sched.length
        factorOne).getD i factorOne).vars ⊆ _
    rw [getD_replicate_val]
    intro w hw
    exact absurd hw (Finset.not_mem_empty w)

/-- Under the invariant, the scope of calc_belief(a, b) stays inside the
scope of cluster a. -/
theorem calc_belief_excl_vars (s : IjgpState) (h : JG s) (a b : ℕ) :
    (calc_belief_excl s a b).vars ⊆ s.m_scopes.getD a ∅ := by
  show (((s.m_out.getD a []).foldl
      (fun f q => if q = b then f
        else f.mul (s.m_backward.getD (edge_index s a q) factorOne))
      ((s.m_in.getD a []).foldl
        (fun f p => if p = b then f
          else f.mul (s.m_forward.getD (edge_index s p a) factorOne))
        (s.m_factors.getD a factorOne)))).vars ⊆ s.m_scopes.getD a ∅
  refine foldl_vars_sub _ _ _ _ ?_ (foldl_vars_sub _ _ _ _ ?_ (h.pot_sub a))
  · intro f q hq
    by_cases hqb : q = b
    · rw [if_pos hqb]
      exact Finset.subset_union_left
    · rw [if_neg hqb]
      intro w hw
      rcases Finset.mem_union.mp hw with h1 | h1
      · exact Finset.mem_union_left _ h1
      · refine Finset.mem_union_right _ ?_
        have hedge : (a, q) ∈ s.m_schedule := h.out_edges a q hq
        have hb := h.bwd_ok (edge_index s a q) (a, q) (h.eidx (a, q) hedge)
        exact Finset.inter_subset_left (hb h1)
  · intro f p hp
    by_cases hpb : p = b
    · rw [if_pos hpb]
      exact Finset.subset_union_left
    · rw [if_neg hpb]
      intro w hw
      rcases Finset.mem_union.mp hw with h1 | h1
      · exact Finset.mem_union_left _ h1
      · refine Finset.mem_union_right _ ?_
        have hedge : (p, a) ∈ s.m_schedule := h.in_edges a p hp
        have hf := h.fwd_ok (edge_index s p a) (p, a) (h.eidx (p, a) hedge)
        exact Finset.inter_subset_right (hf h1)

/-- One forward-edge step preserves the join-graph invariant. -/
theorem forward_edge_JG (card : ℕ → ℕ) (lg : ℚ → ℚ) (s : IjgpState) (e : ℕ × ℕ)
    (h : JG s) (he : e ∈ s.m_schedule) : JG (forward_edge card lg s e) := by
  refine ⟨h.sep_eq, h.in_edges, h.out_edges, h.eidx, h.pot_sub, ?_, h.bwd_ok⟩
  intro i e2 hi
  have hi' : s.m_schedule[i]? = some e2 := hi
  show ((s.m_forward.set (edge_index s e.1 e.2)
      ((elim s.m_elim_op card (calc_belief_excl s e.1 e.2)
        ((s.m_scopes.getD e.1 ∅) \ mget s.m_separators e.1 e.2 ∅)).divs
        ((elim s.m_elim_op card (calc_belief_excl s e.1 e.2)
          ((s.m_scopes.getD e.1 ∅) \ mget s.m_separators e.1 e.2 ∅)).maxAll card))).getD
      i factorOne).vars ⊆ (s.m_scopes.getD e2.1 ∅) ∩ (s.m_scopes.getD e2.2 ∅)
  rw [getD_set_eq_ite]
  by_cases hcond : edge_index s e.1 e.2 = i ∧ edge_index s e.1 e.2 < s.m_forward.length
  · rw [if_pos hcond]
    have he2 : e = e2 := by
      have h1 := h.eidx e he
      rw [hcond.1, hi'] at h1
      exact (Option.some.inj h1).symm
    subst he2
    show (elim s.m_elim_op card (calc_belief_excl s e.1 e.2)
        ((s.m_scopes.getD e.1 ∅) \ mget s.m_separators e.1 e.2 ∅)).vars
      ⊆ (s.m_scopes.getD e.1 ∅) ∩ (s.m_scopes.getD e.2 ∅)
    rw [elim_vars]
    intro w hw
    rcases Finset.mem_sdiff.mp hw with ⟨hw1, hw2⟩
    have hwa : w ∈ s.m_scopes.getD e.1 ∅ := calc_belief_excl_vars s h e.1 e.2 hw1
    have hwsep : w ∈ mget s.m_separators e.1 e.2 ∅ := by
      by_contra hns
      exact hw2 (Finset.mem_sdiff.mpr ⟨hwa, hns⟩)
    rw [h.sep_eq e he] at hwsep
    exact hwsep
  · rw [if_neg hcond]
    exact h.fwd_ok i e2 hi'

/-- One backward-edge step preserves the join-graph invariant. -/
theorem backward_edge_JG (card : ℕ → ℕ) (s : IjgpState) (e : ℕ × ℕ)
    (h : JG s) (he : e ∈ s.m_schedule) : JG (backward_edge card s e) := by
  refine ⟨h.sep_eq, h.in_edges, h.out_edges, h.eidx, h.pot_sub, h.fwd_ok, ?_⟩
  intro i e2 hi
  have hi' : s.m_schedule[i]? = some e2 := hi
  show ((s.m_backward.set (edge_index s e.1 e.2)
      ((elim s.m_elim_op card (calc_belief_excl s e.2 e.1)
        ((s.m_scopes.getD e.2 ∅) \ mget s.m_separators e.1 e.2 ∅)).divs
        ((elim s.m_elim_op card (calc_belief_excl s e.2 e.1)
          ((s.m_scopes.getD e.2 ∅) \ mget s.m_separators e.1 e.2 ∅)).maxAll card))).getD
      i factorOne).vars ⊆ (s.m_scopes.getD e2.1 ∅) ∩ (s.m_scopes.getD e2.2 ∅)
  rw [getD_set_eq_ite]
  by_cases hcond : edge_index s e.1 e.2 = i ∧ edge_index s e.1 e.2 < s.m_backward.length
  · rw [if_pos hcond]
    have he2 : e = e2 := by
      have h1 := h.eidx e he
      rw [hcond.1, hi'] at h1
      exact (Option.some.inj h1).symm
    subst he2
    show (elim s.m_elim_op card (calc_belief_excl s e.2 e.1)
        ((s.m_scopes.getD e.2 ∅) \ mget s.m_separators e.1 e.2 ∅)).vars
      ⊆ (s.m_scopes.getD e.1 ∅) ∩ (s.m_scopes.getD e.2 ∅)
    rw [elim_vars]
    intro w hw
    rcases Finset.mem_sdiff.mp hw with ⟨hw1, hw2⟩
    have hwa : w ∈ s.m_scopes.getD e.2 ∅ := calc_belief_excl_vars s h e.2 e.1 hw1
    have hwsep : w ∈ mget s.m_separators e.1 e.2 ∅ := by
      by_contra hns
      exact hw2 (Finset.mem_sdiff.mpr ⟨hwa, hns⟩)
    rw [h.sep_eq e he] at hwsep
    exact hwsep
  · rw [if_neg hcond]
    exact h.bwd_ok i e2 hi'

/-- Folding forward-edge steps along in-schedule edges preserves the
invariant and keeps the schedule unchanged. -/
theorem forward_fold_JG (card : ℕ → ℕ) (lg : ℚ → ℚ) (l : List (ℕ × ℕ)) :
    ∀ s : IjgpState, JG s → (∀ e ∈ l, e ∈ s.m_schedule) →
      JG (l.foldl (forward_edge card lg) s) ∧
      (l.foldl (forward_edge card lg) s).m_schedule = s.m_schedule := by
  induction l with
  | nil =>
    intro s h _
    exact ⟨h, rfl⟩
  | cons e es ih =>
    intro s h hmem
    rw [List.foldl_cons]
    have h1 := forward_edge_JG card lg s e h (hmem e (List.mem_cons_self e es))
    have hsch : (forward_edge card lg s e).m_schedule = s.m_schedule := rfl
    have h2 := ih (forward_edge card lg s e) h1 (fun e2 he2 => by
      rw [hsch]
      exact hmem e2 (List.mem_cons_of_mem e he2))
    exact ⟨h2.1, h2.2.trans hsch⟩

/-- Folding backward-edge steps along in-schedule edges preserves the
invariant and keeps the schedule unchanged. -/
theorem backward_fold_JG (card : ℕ → ℕ) (l : List (ℕ × ℕ)) :
    ∀ s : IjgpState, JG s → (∀ e ∈ l, e ∈ s.m_schedule) →
      JG (l.foldl (backward_edge card) s) ∧
      (l.foldl (backward_edge card) s).m_schedule = s.m_schedule := by
  induction l with
  | nil =>
    intro s h _
    exact ⟨h, rfl⟩
  | cons e es ih =>
    intro s h hmem
    rw [List.foldl_cons]
    have h1 := backward_edge_JG card s e h (hmem e (List.mem_cons_self e es))
    have hsch : (backward_edge card s e).m_schedule = s.m_schedule := rfl
    have h2 := ih (backward_edge card s e) h1 (fun e2 he2 => by
      rw [hsch]
      exact hmem e2 (List.mem_cons_of_mem e he2))
    exact ⟨h2.1, h2.2.trans hsch⟩

/-- The whole forward pass preserves the join-graph invariant. -/
theorem forward_JG (card : ℕ → ℕ) (lg : ℚ → ℚ) (s : IjgpState) (h : JG s) :
    JG (forward card lg s) := by
  have h0 : JG { s with m_log_z := (0 : ℚ) } :=
    ⟨h.sep_eq, h.in_edges, h.out_edges, h.eidx, h.pot_sub, h.fwd_ok, h.bwd_ok⟩
  have hfold := forward_fold_JG card lg s.m_schedule { s with m_log_z := (0 : ℚ) }
    h0 (fun e he => he)
  exact ⟨hfold.1.sep_eq, hfold.1.in_edges, hfold.1.out_edges, hfold.1.eidx,
    hfold.1.pot_sub, hfold.1.fwd_ok, hfold.1.bwd_ok⟩

/-- The whole backward pass preserves the join-graph invariant. -/
theorem backward_JG (card : ℕ → ℕ) (s : IjgpState) (h : JG s) :
    JG (backward card s) := by
  have hfold := backward_fold_JG card s.m_schedule.reverse s h
    (fun e he => List.mem_reverse.mp he)
  exact hfold.1

/-- A full message pass preserves the join-graph invariant. -/
theorem pass_JG (card : ℕ → ℕ) (lg : ℚ → ℚ) (s : IjgpState) (h : JG s) :
    JG (pass card lg s) :=
  backward_JG card (forward card lg s) (forward_JG card lg s h)

/-- Any number of full message passes preserves the join-graph
invariant. -/
theorem iterate_pass_JG (card : ℕ → ℕ) (lg : ℚ → ℚ) (n : ℕ) (s : IjgpState)
    (h : JG s) : JG ((pass card lg)^[n] s) := by
  induction n with
  | zero => exact h
  | succ k ih =>
    rw [Function.iterate_succ_apply']
    exact pass_JG card lg _ ih

/-- The state one full message pass after init on the two-variable fixture
model, used to instantiate the separator and message-scope results. -/
def c8state : IjgpState := pass tm2.card id (init tm2 defaultCfg [0, 1] 1)

/-- Every field other than the backward messages survives a fold of
backward-edge steps unchanged. -/
theorem backward_fold_frame (card : ℕ → ℕ) (l : List (ℕ × ℕ)) : ∀ s : IjgpState,
    (l.foldl (backward_edge card) s).m_forward = s.m_forward ∧
    (l.foldl (backward_edge card) s).m_log_z = s.m_log_z ∧
    (l.foldl (backward_edge card) s).m_factors = s.m_factors ∧
    (l.foldl (backward_edge card) s).m_scopes = s.m_scopes ∧
    (l.foldl (backward_edge card) s).m_separators = s.m_separators ∧
    (l.foldl (backward_edge card) s).m_originals = s.m_originals ∧
    (l.foldl (backward_edge card) s).m_schedule = s.m_schedule ∧
    (l.foldl (backward_edge card) s).m_clusters = s.m_clusters ∧
    (l.foldl (backward_edge card) s).m_in = s.m_in ∧
    (l.foldl (backward_edge card) s).m_out = s.m_out ∧
    (l.foldl (backward_edge card) s).m_roots = s.m_roots ∧
    (l.foldl (backward_edge card) s).m_edge_indeces = s.m_edge_indeces ∧
    (l.foldl (backward_edge card) s).m_beliefs = s.m_beliefs ∧
    (l.foldl (backward_edge card) s).m_best_config = s.m_best_config ∧
    (l.foldl (backward_edge card) s).m_task = s.m_task ∧
    (l.foldl (backward_edge card) s).m_elim_op = s.m_elim_op ∧
    (l.foldl (backward_edge card) s).m_ibound = s.m_ibound ∧
    (l.foldl (backward_edge card) s).num_iter = s.num_iter ∧
    (l.foldl (backward_edge card) s).m_order = s.m_order ∧
    (l.foldl (backward_edge card) s).m_cluster2var = s.m_cluster2var := by
  induction l with
  | nil =>
    intro s
    exact ⟨rfl, rfl, rfl, rfl, rfl, rfl, rfl, rfl, rfl, rfl, rfl, rfl, rfl, rfl, rfl,
      rfl, rfl, rfl, rfl, rfl⟩
  | cons e l ih =>
    intro s
    exact ih (backward_edge card s e)

/-- C9: the backward pass mutates only the backward message array: the
forward messages, m_log_z, the cluster potentials, scopes, separators,
originals, the schedule and all other join-graph state are unchanged. -/
theorem C9_backward_frame (card : ℕ → ℕ) (s : IjgpState) :
    (backward card s).m_forward = s.m_forward ∧
    (backward card s).m_log_z = s.m_log_z ∧
    (backward card s).m_factors = s.m_factors ∧
    (backward card s).m_scopes = s.m_scopes ∧
    (backward card s).m_separators = s.m_separators ∧
    (backward card s).m_originals = s.m_originals ∧
    (backward card s).m_schedule = s.m_schedule ∧
    (backward card s).m_clusters = s.m_clusters ∧
    (backward card s).m_in = s.m_in ∧
    (backward card s).m_out = s.m_out ∧
    (backward card s).m_roots = s.m_roots ∧
    (backward card s).m_edge_indeces = s.m_edge_indeces ∧
    (backward card s).m_beliefs = s.m_beliefs ∧
    (backward card s).m_best_config = s.m_best_config ∧
    (backward card s).m_task = s.m_task ∧
    (backward card s).m_elim_op = s.m_elim_op ∧
    (backward card s).m_ibound = s.m_ibound ∧
    (backward card s).num_iter = s.num_iter ∧
    (backward card s).m_order = s.m_order ∧
    (backward card s).m_cluster2var = s.m_cluster2var :=
  backward_fold_frame card s.m_schedule.reverse s

/-- With the default stop parameters, the log of every forward message's
rescaling maximum accumulates: the log-partition value after a fold of
forward edges is the starting value plus the sum of the logs of the trace
of message maxima. -/
theorem forward_fold_logz (card : ℕ → ℕ) (lg : ℚ → ℚ) (l : List (ℕ × ℕ)) :
    ∀ s : IjgpState,
      (l.foldl (forward_edge card lg) s).m_log_z
        = s.m_log_z + ((forward_mx_trace card lg s l).map lg).sum := by
  induction l with
  | nil =>
    intro s
    simp [forward_mx_trace]
  | cons e l ih =>
    intro s
    simp only [List.foldl_cons, forward_mx_trace, List.map_cons, List.sum_cons]
    rw [ih (forward_edge card lg s e)]
    show s.m_log_z + lg (forward_mx card s e) + _ = _
    rw [add_assoc]

/-- C5 (amended): with the default stop parameters (stopObj = stopTime =
−1) propagate executes exactly its fuel many iterations whenever it
completes (the early stops can never fire), and init sets the iteration
count to 1 when the i-bound reaches the induced width and to the
configured count otherwise; hence run with num_iter = 0 and i-bound below
the induced width performs zero iterations, not one. -/
theorem C5_iteration_count_amended :
    (∀ (card : ℕ → ℕ) (lg : ℚ → ℚ) (nvar : ℕ) (elapsed : ℕ → ℚ) (r iter : ℕ)
        (s : IjgpState),
      (propagate_go card lg nvar (-1) (-1) elapsed r iter s).map Prod.snd
        = (propagate_go card lg nvar (-1) (-1) elapsed r iter s).map (fun _ => r)) ∧
    (∀ (m : Model) (cfg : Cfg) (order : List ℕ) (wstar : ℕ),
      (init m cfg order wstar).num_iter
        = if cfg.m_ibound ≥ wstar then 1 else cfg.num_iter) := by
  constructor
  · intro card lg nvar elapsed r
    induction r with
    | zero => intro iter s; rfl
    | succ r ih =>
      intro iter s
      simp only [propagate_go]
      cases hu : update card nvar (backward card (forward card lg s)) with
      | error v => rfl
      | ok s2 =>
        have h2 : ¬(|s2.m_log_z - s.m_log_z| < (-1 : ℚ)) := by
          intro h
          exact absurd (lt_of_le_of_lt (abs_nonneg _) h) (by norm_num)
        have h3 : ¬((0 : ℚ) < -1 ∧ (-1 : ℚ) ≤ elapsed iter) := by
          intro h
          exact absurd h.1 (by norm_num)
        dsimp only
        rw [if_neg h2, if_neg h3]
        cases hrec : propagate_go card lg nvar (-1) (-1) elapsed r (iter + 1) s2 with
        | error v => rfl
        | ok p =>
          have hn := ih (iter + 1) s2
          rw [hrec] at hn
          have : p.2 = r := Except.ok.inj hn
          simp [Except.map, this]
  · intro m cfg order wstar
    rfl

/-- C5 counterexample: on the loopy triangle with i-bound 1 (below the
induced width 2 of the order) and the configured iteration count 0, run
performs zero iterations of the forward-backward-update loop, not at
least one. -/
theorem C5_zero_iterations_cex :
    (run id tm3 cfgIter0 [0, 1, 2] 2 (fun _ => 0)).map Prod.snd = Except.ok 0 ∧
    cfgIter0.num_iter = 0 ∧
    (init tm3 cfgIter0 [0, 1, 2] 2).num_iter = 0 := by
  refine ⟨rfl, by decide, by decide⟩

/-- C6 (amended): forward() first resets m_log_z to 0 (its result does not
depend on the incoming value), and on return m_log_z equals the sum of
the logs of the maxima of the unnormalized forward messages along the
schedule plus the root contribution, which takes log of the sum of a
root's belief only for task MAR and log of the max for MAP and PR. -/
theorem C6_forward_logz_amended (card : ℕ → ℕ) (lg : ℚ → ℚ) (s : IjgpState) (z : ℚ) :
    forward card lg { s with m_log_z := z } = forward card lg s ∧
    (forward card lg s).m_log_z
      = ((forward_mx_trace card lg { s with m_log_z := 0 } s.m_schedule).map lg).sum
        + root_contrib card lg
            (s.m_schedule.foldl (forward_edge card lg) { s with m_log_z := 0 }) ∧
    root_contrib card lg s
      = s.m_roots.foldl (fun F r =>
          F + (if s.m_task = Task.MAR then lg ((calc_belief s r).sumAll card)
               else lg ((calc_belief s r).maxAll card))) 0 := by
  refine ⟨rfl, ?_, rfl⟩
  show (s.m_schedule.foldl (forward_edge card lg) { s with m_log_z := 0 }).m_log_z
      + root_contrib card lg
          (s.m_schedule.foldl (forward_edge card lg) { s with m_log_z := 0 }) = _
  rw [forward_fold_logz]
  show (0 : ℚ) + _ + _ = _
  rw [zero_add]

/-- C3 (amended): init performs no coverage check on the elimination order
and never fails; a model variable the order does not visit simply ends
with an empty cluster list, deferring the failure to the later cluster
accesses of update. -/
theorem C3_init_no_order_check_amended (m : Model) (cfg : Cfg) (order : List ℕ)
    (wstar : ℕ) (v : ℕ) (hv : v ∉ order) :
    initE m cfg order wstar = Except.ok (init m cfg order wstar) ∧
    (init m cfg order wstar).m_clusters.getD v [] = [] :=
  ⟨rfl, initBuild_clusters_of_not_mem m cfg.m_ibound order v hv⟩

/-- C3 amended witness: on the two-variable model whose order misses
variable 1, init succeeds and leaves that variable's cluster list
empty. -/
theorem C3_init_no_order_check_amended_witness :
    ((1 : ℕ) ∉ ([0] : List ℕ)) ∧
    (initE tm2 defaultCfg [0] 1 = Except.ok (init tm2 defaultCfg [0] 1) ∧
      (init tm2 defaultCfg [0] 1).m_clusters.getD 1 [] = []) :=
  ⟨by decide, C3_init_no_order_check_amended tm2 defaultCfg [0] 1 1 (by decide)⟩

/-- C3 counterexample: variable 1 appears in the model but not in the
order [0], yet init returns the built join-graph (one cluster of scope
containing both variables) instead of failing with an InvalidOrder
error. -/
theorem C3_no_invalid_order_cex :
    initE tm2 defaultCfg [0] 1 = Except.ok (init tm2 defaultCfg [0] 1) ∧
    (init tm2 defaultCfg [0] 1).m_scopes = [{0, 1}] ∧
    (1 : ℕ) ∈ tphi2.vars ∧ ((1 : ℕ) ∉ ([0] : List ℕ)) :=
  ⟨rfl, by decide, by decide, by decide⟩

/-- C10: update reads m_clusters[v][0] for every model variable, so a
variable occurring in no original factor is skipped by init (its cluster
list stays empty) and the unchecked [0] access fails: update errors on
every state carrying the init-built cluster lists. -/
theorem C10_update_unchecked_cluster_access (m : Model) (cfg : Cfg) (order : List ℕ) (wstar : ℕ)
    (v : ℕ) (hv : v < m.nvar) (hvf : ∀ f ∈ m.factors, v ∉ f.vars) :
    (init m cfg order wstar).m_clusters.getD v [] = [] ∧
    ∀ s : IjgpState, s.m_clusters = (init m cfg order wstar).m_clusters →
      ∃ w, update m.card m.nvar s = Except.error w := by
  have hcl : (initBuild m cfg.m_ibound order).clusters.getD v [] = [] :=
    (initBuild_novar m cfg.m_ibound order v hvf).2.2
  refine ⟨hcl, ?_⟩
  intro s hs
  have hcl' : s.m_clusters.getD v [] = [] := by
    rw [hs]
    exact hcl
  obtain ⟨w, hw⟩ := exceptFold_error_of_empty m.card v (List.range m.nvar) s
    (List.mem_range.mpr hv) hcl'
  refine ⟨w, ?_⟩
  unfold update
  rw [hw]

/-- C10 witness: in the two-variable model whose only factor is over
variable 0, variable 1 has an empty cluster list after init and update
fails on the initial state. -/
theorem C10_update_unchecked_cluster_access_witness :
    ((1 : ℕ) < tm2b.nvar ∧ ∀ f ∈ tm2b.factors, (1 : ℕ) ∉ f.vars) ∧
    (init tm2b defaultCfg [0, 1] 0).m_clusters.getD 1 [] = [] ∧
    (∃ w, update tm2b.card tm2b.nvar (init tm2b defaultCfg [0, 1] 0)
      = Except.error w) :=
  ⟨⟨by decide, by decide⟩,
    (C10_update_unchecked_cluster_access tm2b defaultCfg [0, 1] 0 1 (by decide) (by decide)).1,
    (C10_update_unchecked_cluster_access tm2b defaultCfg [0, 1] 0 1 (by decide) (by decide)).2
      (init tm2b defaultCfg [0, 1] 0) rfl⟩

/-- C6 counterexample: on a one-variable model configured for task PR, the
forward pass ends with m_log_z = log(max(bel_r)) = 2 under the identity
log, while the claim's formula (log of the sum of the root belief for
task PR, no schedule edges) gives 0 + 3. -/
theorem C6_pr_root_uses_max_cex :
    (forward tm1.card id (init tm1 cfgPR [0] 0)).m_log_z = 2 ∧
    (init tm1 cfgPR [0] 0).m_schedule = [] ∧
    (init tm1 cfgPR [0] 0).m_roots = [0] ∧
    (init tm1 cfgPR [0] 0).m_task = Task.PR ∧
    (calc_belief (init tm1 cfgPR [0] 0) 0).sumAll tm1.card = 3 ∧
    (2 : ℚ) ≠ 0 + 3 := by
  refine ⟨by decide, by decide, by decide, by decide, by decide, by decide⟩

/-- C1 counterexample: configuring the task to PR leaves the elimination
operator at Max, not Sum, and max-elimination of a concrete factor differs
from sum-elimination, so for task PR eliminations are not sum-eliminations. -/
theorem C1_task_pr_uses_max_cex :
    (set_properties defaultCfg "Task=PR").map (fun c => (c.m_task, c.m_elim_op))
      = Except.ok (Task.PR, ElimOp.Max) ∧
    (elim ElimOp.Max (fun _ => 2) ⟨{0}, fun σ => if σ 0 = 0 then 1 else 2⟩ {0}).val
      (fun _ => 0) = 2 ∧
    (factor.sum ⟨{0}, fun σ => if σ 0 = 0 then 1 else 2⟩ (fun _ => 2) {0}).val
      (fun _ => 0) = 3 ∧
    ((2 : ℚ) ≠ 3) := by
  refine ⟨by decide, by decide, by decide, by decide⟩

/-- C1 (amended): set_properties couples the elimination operator to the
task as Sum exactly for MAR; both MAP and PR yield Max, and elim and marg
dispatch Sum to sum-elimination or sum-marginal and Max to max-elimination
or max-marginal. -/
theorem C1_task_elim_op_amended : ∀ c : Cfg,
    (set_properties c "Task=MAR").map (·.m_elim_op) = Except.ok ElimOp.Sum ∧
    (set_properties c "Task=PR").map (·.m_elim_op) = Except.ok ElimOp.Max ∧
    (set_properties c "Task=MAP").map (·.m_elim_op) = Except.ok ElimOp.Max ∧
    ∀ (card : ℕ → ℕ) (F : factor) (vs : VarSet),
      elim ElimOp.Sum card F vs = F.sum card vs ∧
      elim ElimOp.Max card F vs = F.max card vs ∧
      marg ElimOp.Sum card F vs = F.marginal card vs ∧
      marg ElimOp.Max card F vs = F.maxmarginal card vs := by
  intro c
  exact ⟨rfl, rfl, rfl, fun card F vs => ⟨rfl, rfl, rfl, rfl⟩⟩

/-- C2 counterexample: the property entry iBound=abc has an unparseable
numeric value, yet set_properties accepts it without an error (atol yields
0, which set_ibound maps to the largest size_t). -/
theorem C2_unparseable_value_accepted_cex :
    set_properties defaultCfg "iBound=abc"
      = Except.ok { defaultCfg with m_ibound := size_t_max } := by
  decide

/-- C2 (amended): an unknown property key, and an unparseable enum value
such as a task name, raise InvalidConfig, but an unparseable numeric value
is parsed by atol as 0 and silently accepted (iBound then becomes the
largest size_t). -/
theorem C2_property_errors_amended : ∀ c : Cfg,
    set_properties c "Bogus=1" = Except.error MerlinError.invalidConfig ∧
    set_properties c "Task=XYZ" = Except.error MerlinError.invalidConfig ∧
    set_properties c "iBound=abc"
      = Except.ok { c with m_debug := false, m_ibound := size_t_max } := by
  intro c
  exact ⟨rfl, rfl, rfl⟩

/-- C4 counterexample: belief on the singleton variable set containing
variable 0 raises the not-implemented error instead of returning the
belief of that variable. -/
theorem C4_singleton_belief_throws_cex :
    belief_vs [] {0} = Except.error MerlinError.notImplemented ∧
    ({0} : Finset ℕ).card ≤ 1 := by
  exact ⟨rfl, by decide⟩

/-- C4 (amended): the belief overload taking a variable set raises
unconditionally, whatever the size of the set; a singleton set raises too. -/
theorem C4_belief_vs_always_errors :
    ∀ (bs : List factor) (vs : VarSet),
      belief_vs bs vs = Except.error MerlinError.notImplemented := by
  intro bs vs
  rfl

/-- C7 counterexample: with i-bound 1 and two live factors of scope size 3
whose union has 3 > 1 + 1 variables, score returns 1/6 rather than the −3
the claim requires, because the effective bound is raised to the scope
sizes. -/
theorem C7_score_effective_ibound_cex :
    score 1 [({0, 1, 2} : Finset ℕ), {0, 1, 2}] 0 0 1 = 1 / 6 ∧
    (({0, 1, 2} : Finset ℕ) ∪ {0, 1, 2}).card > 1 + 1 ∧
    (1 / 6 : ℚ) ≠ -3 := by
  refine ⟨by decide, by decide, by decide⟩

/-- C7 (amended): score compares the combined scope against the effective
i-bound max(I, |scope(i)|−1, |scope(j)|−1) plus one (−3 beyond it,
1/(|scope(i)|+|scope(j)|) within); the claim's formula with the configured
I alone is recovered when both scopes already fit within I+1. -/
theorem C7_score_amended (ib : ℕ) (fin : List VarSet) (vx i j : ℕ)
    (h1 : 1 ≤ (fin.getD i ∅).card) (h1' : (fin.getD i ∅).card ≤ size_t_max)
    (h2 : 1 ≤ (fin.getD j ∅).card) (h2' : (fin.getD j ∅).card ≤ size_t_max)
    (hib : ib < size_t_max) :
    score ib fin vx i j =
      (if ((fin.getD i ∅) ∪ (fin.getD j ∅)).card >
          Nat.max (Nat.max ib ((fin.getD i ∅).card - 1)) ((fin.getD j ∅).card - 1) + 1
        then -3 else 1 / (((fin.getD i ∅).card : ℚ) + ((fin.getD j ∅).card : ℚ))) ∧
    ((fin.getD i ∅).card ≤ ib + 1 → (fin.getD j ∅).card ≤ ib + 1 →
      score ib fin vx i j =
        if ((fin.getD i ∅) ∪ (fin.getD j ∅)).card > ib + 1
        then -3 else 1 / (((fin.getD i ∅).card : ℚ) + ((fin.getD j ∅).card : ℚ))) := by
  unfold size_t_max at h1' h2' hib
  have e1 : sub1sz (fin.getD i ∅).card = (fin.getD i ∅).card - 1 := by
    unfold sub1sz size_t_max size_t_mod
    omega
  have e2 : sub1sz (fin.getD j ∅).card = (fin.getD j ∅).card - 1 := by
    unfold sub1sz size_t_max size_t_mod
    omega
  have hb : Nat.max (Nat.max ib ((fin.getD i ∅).card - 1)) ((fin.getD j ∅).card - 1)
      ≤ 18446744073709551614 :=
    Nat.max_le.mpr ⟨Nat.max_le.mpr ⟨by omega, by omega⟩, by omega⟩
  have emod :
      (Nat.max (Nat.max ib ((fin.getD i ∅).card - 1)) ((fin.getD j ∅).card - 1) + 1)
          % size_t_mod
        = Nat.max (Nat.max ib ((fin.getD i ∅).card - 1)) ((fin.getD j ∅).card - 1) + 1 := by
    apply Nat.mod_eq_of_lt
    unfold size_t_mod
    omega
  constructor
  · simp only [score]
    rw [e1, e2, emod]
  · intro hi hj
    have g1 : (fin.getD i ∅).card - 1 ≤ ib := by omega
    have g2 : (fin.getD j ∅).card - 1 ≤ ib := by omega
    have hmax : Nat.max (Nat.max ib ((fin.getD i ∅).card - 1)) ((fin.getD j ∅).card - 1)
        = ib :=
      (Nat.max_eq_left (le_trans g2 (Nat.le_max_left _ _))).trans (Nat.max_eq_left g1)
    simp only [score]
    rw [e1, e2, emod, hmax]

/-- C7 amended witness: at i-bound 4 with scopes of sizes 1 and 2 the
hypotheses hold and the score is given by the claim's formula. -/
theorem C7_score_amended_witness :
    1 ≤ (([({0} : Finset ℕ), {0, 1}] : List VarSet).getD 0 ∅).card ∧
    4 < size_t_max ∧
    score 4 [({0} : Finset ℕ), {0, 1}] 0 0 1 =
      if ((([({0} : Finset ℕ), {0, 1}] : List VarSet).getD 0 ∅)
            ∪ (([({0} : Finset ℕ), {0, 1}] : List VarSet).getD 1 ∅)).card > 4 + 1
      then -3
      else 1 / ((((([({0} : Finset ℕ), {0, 1}] : List VarSet).getD 0 ∅).card : ℚ))
          + (((([({0} : Finset ℕ), {0, 1}] : List VarSet).getD 1 ∅).card : ℚ))) :=
  ⟨by decide, by decide,
    (C7_score_amended 4 [({0} : Finset ℕ), {0, 1}] 0 0 1 (by decide) (by decide)
      (by decide) (by decide) (by decide)).2 (by decide) (by decide)⟩

/-- C8 (amended): after init and any number of full forward/backward
message passes, for every schedule edge (a, b) of the join-graph the
stored separator equals scope(a) ∩ scope(b), and the scopes of the stored
forward and backward messages of the edge are contained in that separator
(the containment can be strict, see the counterexample). -/
theorem C8_separator_and_message_scopes_amended (m : Model) (cfg : Cfg)
    (order : List ℕ) (wstar n : ℕ) (lg : ℚ → ℚ) (s : IjgpState)
    (hs : s = (pass m.card lg)^[n] (init m cfg order wstar))
    (e : ℕ × ℕ) (he : e ∈ s.m_schedule) :
    mget s.m_separators e.1 e.2 ∅
        = (s.m_scopes.getD e.1 ∅) ∩ (s.m_scopes.getD e.2 ∅)
      ∧ (s.m_forward.getD (edge_index s e.1 e.2) factorOne).vars
          ⊆ mget s.m_separators e.1 e.2 ∅
      ∧ (s.m_backward.getD (edge_index s e.1 e.2) factorOne).vars
          ⊆ mget s.m_separators e.1 e.2 ∅ := by
  have hjg : JG s := by
    rw [hs]
    exact iterate_pass_JG m.card lg n _ (JG_init m cfg order wstar)
  have hsep := hjg.sep_eq e he
  refine ⟨hsep, ?_, ?_⟩
  · rw [hsep]
    exact hjg.fwd_ok (edge_index s e.1 e.2) e (hjg.eidx e he)
  · rw [hsep]
    exact hjg.bwd_ok (edge_index s e.1 e.2) e (hjg.eidx e he)

/-- C8 amended witness: on the two-variable fixture after one full pass,
the edge (0, 1) is scheduled, its separator is the scope intersection and
both message scopes lie inside it. -/
theorem C8_separator_and_message_scopes_amended_witness :
    (0, 1) ∈ c8state.m_schedule ∧
    (mget c8state.m_separators 0 1 ∅
        = (c8state.m_scopes.getD 0 ∅) ∩ (c8state.m_scopes.getD 1 ∅)
      ∧ (c8state.m_forward.getD (edge_index c8state 0 1) factorOne).vars
          ⊆ mget c8state.m_separators 0 1 ∅
      ∧ (c8state.m_backward.getD (edge_index c8state 0 1) factorOne).vars
          ⊆ mget c8state.m_separators 0 1 ∅) :=
  have he : (0, 1) ∈ c8state.m_schedule := by decide
  ⟨he, C8_separator_and_message_scopes_amended tm2 defaultCfg [0, 1] 1 1 id
    c8state rfl (0, 1) he⟩

/-- C8 counterexample: on the two-variable fixture after one full pass,
the backward message of the scheduled edge (0, 1) has empty scope while
the stored separator is the nonempty set containing variable 1, so the
message scope does not equal the separator. -/
theorem C8_backward_scope_not_separator_cex :
    (0, 1) ∈ c8state.m_schedule
      ∧ mget c8state.m_separators 0 1 ∅ = ({1} : VarSet)
      ∧ (c8state.m_backward.getD (edge_index c8state 0 1) factorOne).vars = (∅ : VarSet)
      ∧ ({1} : VarSet) ≠ (∅ : VarSet) := by
  decide

end merlin
